import Mathlib

/-!
# Verification of the response→admin sheet merge (`auth_batch.py`)

Shallow embedding of the merge engine of this repository.  Cell values are
Lean `String`s (Python `str`); a record (one row, as produced by gspread's
`get_all_records`) is an ordered association list from column name to cell
text, mirroring a Python `dict` whose keys are the header columns.

Python string primitives (`str.strip`, `str.split('\n')`, `'\n'.join`,
`str.lower`, substring test `in`) are embedded as executable functions on
character lists.  `str.strip` removes ASCII whitespace on both ends; the
embedding covers the whitespace characters Python strips that are
representable here (unicode exotica aside, which never occur in the
repository's data).

Pandas specifics are embedded as follows: `pd.DataFrame(list_of_dicts)`
keeps the rows in order with the original list positions as index;
`df.columns` membership is "some record has this key"; `_create_key` adds
(or overwrites) a `KEY` column, and `_update_admin_sheet` drops it again
before writing; a cell read `df.at[i, col]` with an `isna` guard is the
association-list lookup defaulting to `""`.
-/

set_option maxRecDepth 8192

/-- Python whitespace for `str.strip` (space, tab, CR, LF, vertical tab,
form feed). -/
def pyIsSpace (c : Char) : Bool := c.isWhitespace || c == '\x0b' || c == '\x0c'

/-- Remove trailing whitespace characters. -/
def stripEnd (l : List Char) : List Char :=
  (l.reverse.dropWhile pyIsSpace).reverse

/-- Characters with leading and trailing whitespace removed (`str.strip`). -/
def stripChars (l : List Char) : List Char := stripEnd (l.dropWhile pyIsSpace)

/-- Python `str.strip()`. -/
def pyStrip (s : String) : String := (stripChars s.toList).asString

/-- Python `str.split(sep)` for a one-character separator, on character
lists.  Always returns at least one (possibly empty) part:
`"".split('\n') == ['']`. -/
def splitOnChar (c : Char) : List Char → List (List Char)
  | [] => [[]]
  | a :: rest =>
    match splitOnChar c rest with
    | [] => [[]]
    | g :: gs => if a = c then [] :: g :: gs else (a :: g) :: gs

/-- Python `str.split('\n')`. -/
def pySplit (s : String) : List String :=
  (splitOnChar '\n' s.toList).map List.asString

/-- `'\n'.join` on character lists. -/
def joinChars : List (List Char) → List Char
  | [] => []
  | [x] => x
  | x :: y :: rest => x ++ '\n' :: joinChars (y :: rest)

/-- Python `'\n'.join(xs)`. -/
def pyJoin (xs : List String) : String :=
  (joinChars (xs.map String.toList)).asString

/-- The seen-set deduplication loop of `_merge_multiline_data`: `acc` is the
`unique_values` list built so far (membership in `acc` coincides with
membership in the Python `seen` set). -/
def dedupAcc : List String → List String → List String
  | acc, [] => acc
  | acc, v :: rest => dedupAcc (if v ∈ acc then acc else acc ++ [v]) rest

/-- Remove duplicates while preserving first-seen order
(`unique_values` loop in `_merge_multiline_data`). -/
def dedupPreserveOrder (l : List String) : List String := dedupAcc [] l

/-- Python `str.lower()` (`Char.toLower` on each character; ASCII-only
case mapping, the identity on Hangul, as in CPython for these tokens). -/
def pyLower (s : String) : String := (s.toList.map Char.toLower).asString

/-- A value contains no newline character. -/
def noNl (s : String) : Prop := '\n' ∉ s.toList

instance (s : String) : Decidable (noNl s) := by
  unfold noNl; infer_instance

/-- `src/auth_batch.py:161` `_merge_multiline_data`: split the existing cell
on newline (stripping each line, dropping blank lines, and skipping a
whitespace-only existing value entirely), append the stripped non-empty new
values, deduplicate preserving first-seen order, and rejoin with newline. -/
def _merge_multiline_data (existing_value : String) (new_values : List String) : String :=
  let existingLines : List String :=
    if pyStrip existing_value ≠ "" then
      ((pySplit existing_value).map pyStrip).filter (fun l => l ≠ "")
    else []
  let processedNew : List String :=
    (new_values.map pyStrip).filter (fun v => v ≠ "")
  pyJoin (dedupPreserveOrder (existingLines ++ processedNew))

/-- A row of a sheet as returned by `get_all_records`: an ordered mapping
from column name to cell text. -/
abbrev Record := List (String × String)

/-- Python `row.get(col, '')` / a pandas cell read with the `isna → ""`
guard: value of the first pair with the given key, `""` when absent. -/
def Record.get : Record → String → String
  | [], _ => ""
  | (k, v) :: rest, c => if k = c then v else Record.get rest c

/-- Assigning a cell (`df.at[i, col] = v`): replace the value of the first
pair with this key, or append the pair when the column is absent (pandas
materialises the column for every row). -/
def Record.set : Record → String → String → Record
  | [], c, v => [(c, v)]
  | (k, w) :: rest, c, v =>
    if k = c then (k, v) :: rest else (k, w) :: Record.set rest c v

/-- The record has a pair with this key. -/
def Record.hasKey (r : Record) (c : String) : Bool := r.any (fun p => p.1 == c)

/-- `col in df.columns` for a frame built from these records: some record
carries the key. -/
def hasColumn (rows : List Record) (c : String) : Bool :=
  rows.any (fun r => r.hasKey c)

/-- `src/auth_batch.py:140` `_create_key`: the composite key
`trim(동) + "-" + trim(호수)` of a row. -/
def rowKey (r : Record) : String :=
  pyStrip (r.get "동") ++ "-" ++ pyStrip (r.get "호수")

/-- `_create_key` applied to one row: materialise the `KEY` column. -/
def addKey (r : Record) : Record := r.set "KEY" (rowKey r)

/-- `update_df = admin_df.drop(columns=['KEY'])` applied to one row: every
pair whose column is the transient `KEY` is removed, the rest kept in
order. -/
def dropKey : Record → Record
  | [] => []
  | (k, v) :: rest => if k = "KEY" then dropKey rest else (k, v) :: dropKey rest

/-- `src/auth_batch.py:80` `_get_protected_columns`. -/
def _get_protected_columns : List String :=
  ["검토자1", "검토자2", "동", "호수", "타입", "비고", "카카오톡 닉네임+uuid"]

/-- `src/auth_batch.py:148` `_get_column_mappings`, in insertion order
(Python dict iteration order). -/
def _get_column_mappings : List (String × String) :=
  [("위임장 업로드", "위임장 업로드"),
   ("계약서 업로드", "계약서 업로드"),
   ("이름", "이름"),
   ("비상연락망", "비상연락망"),
   ("네이버카페 ID", "네이버카페 ID"),
   ("자격구분", "자격구분"),
   ("세대 대표자 여부", "세대 대표자 여부"),
   ("개인정보 수집·이용 동의", "개인정보 수집·이용 동의")]

/-- Truthy tokens of the representative-flag check
(`src/auth_batch.py:192`). -/
def truthyTokens : List String := ["예", "yes", "y", "o", "대표", "true", "1"]

/-- The `세대 대표자 여부` cell of a response, stripped and lowercased, is one
of the truthy tokens. -/
def truthyFlag (r : Record) : Prop :=
  pyLower (pyStrip (r.get "세대 대표자 여부")) ∈ truthyTokens

instance (r : Record) : Decidable (truthyFlag r) := by
  unfold truthyFlag; infer_instance

/-- `src/auth_batch.py:186` `_extract_representatives`: names (stripped,
non-empty) of the responses of the group whose representative flag is
truthy, newline-joined. -/
def _extract_representatives (responses_for_key : List Record) : String :=
  let representatives : List String :=
    responses_for_key.filterMap (fun response =>
      if truthyFlag response then
        let name := pyStrip (response.get "이름")
        if name ≠ "" then some name else none
      else none)
  if representatives.isEmpty then "" else pyJoin representatives

/-- `src/auth_batch.py:198` `_generate_uuid_from_df`: the 1-based sheet row
numbers (DataFrame index + 2, one header row) of the group's responses,
newline-joined. -/
def _generate_uuid_from_df (indices : List Nat) : String :=
  if indices.isEmpty then "" else pyJoin (indices.map (fun idx => toString (idx + 2)))

/-- `response_grouped.get_group(key)` with the original DataFrame index:
the indexed response rows whose `KEY` equals the admin row's key, in
original order. -/
def groupFor (rk : List Record) (key : String) : List (Nat × Record) :=
  rk.enum.filter (fun p => p.2.get "KEY" == key)

/-- `new_values` of one column mapping (`src/auth_batch.py:270`): the
response column's values over the group, stripped, empties removed. -/
def collectNewValues (group : List Record) (response_col : String) : List String :=
  (group.map (fun resp => pyStrip (resp.get response_col))).filter (fun v => v ≠ "")

/-- One iteration of the column-mapping loop (`src/auth_batch.py:263`):
skip protected targets, skip mappings whose column is absent on either
side, skip when no non-empty values were collected, otherwise merge into
the admin cell with the multiline policy. -/
def mapStep (rk ak : List Record) (group : List Record) (m : String × String)
    (r : Record) : Record :=
  if m.2 ∈ _get_protected_columns then r
  else if hasColumn rk m.1 && hasColumn ak m.2 then
    if (collectNewValues group m.1).isEmpty then r
    else r.set m.2 (_merge_multiline_data (r.get m.2) (collectNewValues group m.1))
  else r

/-- The column-mapping loop, applied in mapping order. -/
def applyMappings (rk ak : List Record) (group : List Record) :
    List (String × String) → Record → Record
  | [], r => r
  | m :: ms, r => applyMappings rk ak group ms (mapStep rk ak group m r)

/-- The wholesale writes of the per-admin-row loop of
`merge_into_admin_sheet` (`src/auth_batch.py:254`-`260`): overwrite the
`uuid` column (when the admin schema has one) with the group's source row
numbers, then the `대표자 이름` column (when present) with the extracted
representatives. -/
def setSpecialCols (ak : List Record) (group : List (Nat × Record))
    (row : Record) : Record :=
  if hasColumn ak "대표자 이름" then
    (if hasColumn ak "uuid" then
        row.set "uuid" (_generate_uuid_from_df (group.map Prod.fst))
      else row).set "대표자 이름" (_extract_representatives (group.map Prod.snd))
  else
    if hasColumn ak "uuid" then
      row.set "uuid" (_generate_uuid_from_df (group.map Prod.fst))
    else row

/-- Body of the per-admin-row loop (continued): unmatched rows pass
through, matched rows get the wholesale columns written and every column
mapping merged in. -/
def processAdminRow (rk ak : List Record) (mappings : List (String × String))
    (row : Record) : Record :=
  if (groupFor rk (row.get "KEY")).isEmpty then row
  else applyMappings rk ak ((groupFor rk (row.get "KEY")).map Prod.snd) mappings
    (setSpecialCols ak (groupFor rk (row.get "KEY")) row)

/-- The non-degenerate body of `merge_into_admin_sheet`, parametrised by the
column-mapping table: key both sides, process every admin row in order,
drop the transient `KEY` column again.  The written admin table. -/
def mergeRowsWith (mappings : List (String × String))
    (response_data admin_data : List Record) : List Record :=
  let rk := response_data.map addKey
  let ak := admin_data.map addKey
  ak.map (fun row => dropKey (processAdminRow rk ak mappings row))

/-- `src/auth_batch.py:213` `merge_into_admin_sheet`: `none` models the
early return on an empty response set (no merge, no write); `some t` means
`_update_admin_sheet` is invoked with the merged table `t`. -/
def merge_into_admin_sheet (response_data admin_data : List Record) :
    Option (List Record) :=
  if response_data.isEmpty then none
  else some (mergeRowsWith _get_column_mappings response_data admin_data)

/-- The admin table after one run of the engine: unchanged when the engine
returned without writing, otherwise the written table. -/
def adminAfterRun (response_data admin_data : List Record) : List Record :=
  match merge_into_admin_sheet response_data admin_data with
  | none => admin_data
  | some t => t

/-- Substring test, Python `needle in hay`, on character lists. -/
def isInfixChars (needle : List Char) : List Char → Bool
  | [] => needle.isEmpty
  | a :: rest => needle.isPrefixOf (a :: rest) || isInfixChars needle rest

/-- Python `needle in hay` for strings. -/
def pyInStr (needle hay : String) : Bool := isInfixChars needle.toList hay.toList

/-- `src/auth_batch.py:386`: the header-row test for one raw row.  The code
tests `'동' in str(cell) and '호수' in str(all_data[i])` over the cells of
the row; the second conjunct looks at the Python repr of the whole row, in
which `호수` occurs exactly when some cell contains it (repr quoting and
escaping can neither split that substring across cells nor fabricate
it). -/
def headerRowPred (row : List String) : Bool :=
  row.any (fun cell => pyInStr "동" cell) && row.any (fun cell => pyInStr "호수" cell)

/-- The scan of `_update_admin_sheet` (`src/auth_batch.py:384`-`388`):
1-based index of the first raw row passing the header test, `none` when no
row passes. -/
def findHeaderRow1 : List (List String) → Nat → Option Nat
  | [], _ => none
  | row :: rest, i => if headerRowPred row then some (i + 1) else findHeaderRow1 rest (i + 1)

/-- `header_row_idx` with the fallback to row 3 (`src/auth_batch.py:390`-`393`). -/
def headerRowIdx (all_data : List (List String)) : Nat :=
  (findHeaderRow1 all_data 0).getD 3

/-- `start_row = header_row_idx + 1` (`src/auth_batch.py:396`): the first
data row sits immediately below the header row. -/
def dataStartRow (all_data : List (List String)) : Nat := headerRowIdx all_data + 1

/-- The retry loop of `src/auth_batch.py:57` `get_worksheet_by_id_with_retry`:
the gateway is an oracle from attempt number to an optional worksheet
handle (an exception and a falsy result both count as "not resolved"); the
loop returns the first success within the remaining attempts, `none`
modelling the final `RuntimeError`. -/
def retryAttempts (fetch : Nat → Option Nat) : Nat → Nat → Option Nat
  | _, 0 => none
  | attempt, rem + 1 =>
    match fetch attempt with
    | some ws => some ws
    | none => retryAttempts fetch (attempt + 1) rem

/-- `get_worksheet_by_id_with_retry` with its attempt budget. -/
def get_worksheet_by_id_with_retry (fetch : Nat → Option Nat) (retries : Nat) :
    Option Nat :=
  retryAttempts fetch 0 retries

/-- Observable outcome of one `process_sheets` run: whether it raised,
whether the merge engine ran, and the bulk writes made to the admin
sheet. -/
structure RunOutcome where
  fatalError : Bool
  mergeAttempted : Bool
  adminWrites : List (List Record)
  deriving DecidableEq

/-- `src/auth_batch.py:417` `process_sheets` after the sheets are read:
`backup_admin_sheet` resolves the backup copy by id with 5 retries
(`src/auth_batch.py:131`) and raises when that fails, so nothing further
runs; only then does the merge engine run, and only a `some` merge result
reaches `_update_admin_sheet` (one bulk write of the merged table). -/
def process_sheets (fetch : Nat → Option Nat)
    (response_data admin_data : List Record) : RunOutcome :=
  match get_worksheet_by_id_with_retry fetch 5 with
  | none => ⟨true, false, []⟩
  | some _ =>
    match merge_into_admin_sheet response_data admin_data with
    | none => ⟨false, true, []⟩
    | some t => ⟨false, true, [t]⟩

/-- The multiline merge policy as claim C1 words it, literally: split the
existing value on newline, append the trimmed non-empty new values,
deduplicate preserving first-seen order, rejoin with newline. -/
def mergeMultilineClaimed (existing_value : String) (new_values : List String) : String :=
  pyJoin (dedupPreserveOrder
    (pySplit existing_value ++ (new_values.map pyStrip).filter (fun v => v ≠ "")))

/-- Existing-cell lines as the code computes them: split on newline, strip
each line, drop blank lines. -/
def normalizeLines (existing_value : String) : List String :=
  ((pySplit existing_value).map pyStrip).filter (fun l => l ≠ "")

/-- The amended multiline merge policy: as claimed, except that the lines
of the existing value are likewise trimmed and blank lines discarded. -/
def mergeMultilineAmended (existing_value : String) (new_values : List String) : String :=
  pyJoin (dedupPreserveOrder
    (normalizeLines existing_value ++ (new_values.map pyStrip).filter (fun v => v ≠ "")))

/-- The representative cell as claim C6 words it, literally: the
newline-joined names of exactly those records of the group whose
representative flag is truthy. -/
def repClaimed (group : List Record) : String :=
  pyJoin ((group.filter (fun r => decide (truthyFlag r))).map (fun r => r.get "이름"))

/-- The amended wording: trimmed names, and only the non-empty ones. -/
def repAmended (group : List Record) : String :=
  pyJoin (((group.filter (fun r => decide (truthyFlag r))).map
    (fun r => pyStrip (r.get "이름"))).filter (fun n => n ≠ ""))

/-- A merged-cell line in normal form: non-empty, stable under stripping,
and free of newlines. -/
def isClean (s : String) : Prop := s ≠ "" ∧ pyStrip s = s ∧ noNl s

instance (s : String) : Decidable (isClean s) := by
  unfold isClean; infer_instance

/-! ## Record lemmas -/

theorem Record.get_nil (c : String) : Record.get [] c = "" := rfl

theorem Record.get_cons (k v : String) (r : Record) (c : String) :
    Record.get ((k, v) :: r) c = if k = c then v else r.get c := rfl

theorem Record.hasKey_nil (c : String) : Record.hasKey [] c = false := rfl

theorem Record.hasKey_cons (k v : String) (r : Record) (c : String) :
    Record.hasKey ((k, v) :: r) c = (k == c || r.hasKey c) := by
  simp [Record.hasKey, List.any_cons]

theorem Record.get_set_self (r : Record) (c v : String) :
    (r.set c v).get c = v := by
  induction r with
  | nil => simp [Record.set, Record.get]
  | cons p rest ih =>
    obtain ⟨k, w⟩ := p
    by_cases h : k = c <;> simp [Record.set, Record.get, h, ih]

theorem Record.get_set_ne (r : Record) (c v k : String) (h : k ≠ c) :
    (r.set c v).get k = r.get k := by
  induction r with
  | nil =>
    have h2 : c ≠ k := fun hh => h hh.symm
    simp [Record.set, Record.get, h2]
  | cons p rest ih =>
    obtain ⟨k', w⟩ := p
    by_cases h1 : k' = c
    · have h3 : c ≠ k := fun hh => h hh.symm
      simp [Record.set, Record.get, h1, h3]
    · by_cases h2 : k' = k
      · simp [Record.set, Record.get, h1, h2, h]
      · simp [Record.set, Record.get, h1, h2, ih]

theorem Record.hasKey_set_iff (r : Record) (c v k : String) :
    (r.set c v).hasKey k = true ↔ (r.hasKey k = true ∨ c = k) := by
  induction r with
  | nil => simp [Record.set, Record.hasKey]
  | cons p rest ih =>
    obtain ⟨k', w⟩ := p
    by_cases h1 : k' = c
    · subst h1
      simp [Record.set, Record.hasKey_cons]
      tauto
    · simp [Record.set, h1, Record.hasKey_cons, ih]
      tauto

theorem Record.set_eq_self (r : Record) (c v : String)
    (hmem : r.hasKey c = true) (hval : r.get c = v) : r.set c v = r := by
  induction r with
  | nil => simp [Record.hasKey] at hmem
  | cons p rest ih =>
    obtain ⟨k, w⟩ := p
    by_cases h : k = c
    · subst h
      simp [Record.get] at hval
      simp [Record.set, hval]
    · rw [Record.hasKey_cons] at hmem
      simp [h] at hmem
      rw [Record.get_cons, if_neg h] at hval
      simp [Record.set, h, ih hmem hval]

theorem Record.set_of_not_hasKey (r : Record) (c v : String)
    (h : r.hasKey c = false) : r.set c v = r ++ [(c, v)] := by
  induction r with
  | nil => simp [Record.set]
  | cons p rest ih =>
    obtain ⟨k, w⟩ := p
    rw [Record.hasKey_cons] at h
    simp only [Bool.or_eq_false_iff] at h
    obtain ⟨h1, h2⟩ := h
    have h1' : ¬ (k = c) := by simpa using h1
    simp [Record.set, h1', ih h2]

theorem dropKey_get (r : Record) (c : String) (h : c ≠ "KEY") :
    (dropKey r).get c = r.get c := by
  induction r with
  | nil => simp [dropKey]
  | cons p rest ih =>
    obtain ⟨k, w⟩ := p
    by_cases h1 : k = "KEY"
    · subst h1
      have h3 : ("KEY" : String) ≠ c := fun hh => h hh.symm
      simp [dropKey, Record.get, h3, ih]
    · by_cases h2 : k = c <;> simp [dropKey, Record.get, h1, h2, h, ih]

theorem dropKey_hasKey (r : Record) (c : String) (h : c ≠ "KEY") :
    (dropKey r).hasKey c = r.hasKey c := by
  induction r with
  | nil => simp [dropKey]
  | cons p rest ih =>
    obtain ⟨k, w⟩ := p
    by_cases h1 : k = "KEY"
    · subst h1
      have h3 : ¬ (("KEY" : String) == c) = true := by
        simp
        exact fun hh => h hh.symm
      simp [dropKey, Record.hasKey_cons, ih]
      intro hcon
      exact absurd (by simp [hcon]) h3
    · simp [dropKey, h1, Record.hasKey_cons, ih]

theorem dropKey_hasKey_KEY (r : Record) : (dropKey r).hasKey "KEY" = false := by
  induction r with
  | nil => simp [dropKey, Record.hasKey]
  | cons p rest ih =>
    obtain ⟨k, w⟩ := p
    by_cases h1 : k = "KEY" <;> simp [dropKey, h1, Record.hasKey_cons, ih]

theorem dropKey_append (r s : Record) :
    dropKey (r ++ s) = dropKey r ++ dropKey s := by
  induction r with
  | nil => simp [dropKey]
  | cons p rest ih =>
    obtain ⟨k, w⟩ := p
    by_cases h1 : k = "KEY" <;> simp [dropKey, h1, ih]

theorem dropKey_of_not_hasKey (r : Record) (h : r.hasKey "KEY" = false) :
    dropKey r = r := by
  induction r with
  | nil => rfl
  | cons p rest ih =>
    obtain ⟨k, w⟩ := p
    rw [Record.hasKey_cons] at h
    simp only [Bool.or_eq_false_iff] at h
    obtain ⟨h1, h2⟩ := h
    have h1' : ¬ (k = "KEY") := by simpa using h1
    simp [dropKey, h1', ih h2]

theorem dropKey_idem (r : Record) : dropKey (dropKey r) = dropKey r :=
  dropKey_of_not_hasKey (dropKey r) (dropKey_hasKey_KEY r)

theorem addKey_get_KEY (r : Record) : (addKey r).get "KEY" = rowKey r :=
  Record.get_set_self r "KEY" (rowKey r)

theorem addKey_get (r : Record) (c : String) (h : c ≠ "KEY") :
    (addKey r).get c = r.get c :=
  Record.get_set_ne r "KEY" (rowKey r) c h

theorem addKey_hasKey_KEY (r : Record) : (addKey r).hasKey "KEY" = true :=
  (Record.hasKey_set_iff r "KEY" (rowKey r) "KEY").mpr (Or.inr rfl)

theorem addKey_hasKey (r : Record) (c : String) (h : c ≠ "KEY") :
    (addKey r).hasKey c = r.hasKey c := by
  have hiff := Record.hasKey_set_iff r "KEY" (rowKey r) c
  have h2 : ¬ (("KEY" : String) = c) := fun hh => h hh.symm
  cases hc : r.hasKey c
  · have hne : ¬ ((addKey r).hasKey c = true) := by
      intro hcon
      rcases hiff.mp hcon with hx | hx
      · rw [hc] at hx
        exact Bool.false_ne_true hx
      · exact h2 hx
    simpa using hne
  · exact hiff.mpr (Or.inl hc)

theorem rowKey_set_ne (r : Record) (c v : String) (h1 : c ≠ "동")
    (h2 : c ≠ "호수") : rowKey (r.set c v) = rowKey r := by
  unfold rowKey
  rw [Record.get_set_ne r c v "동" (fun hh => h1 hh.symm),
      Record.get_set_ne r c v "호수" (fun hh => h2 hh.symm)]

theorem rowKey_addKey (r : Record) : rowKey (addKey r) = rowKey r :=
  rowKey_set_ne r "KEY" (rowKey r) (by decide) (by decide)

theorem rowKey_dropKey (r : Record) : rowKey (dropKey r) = rowKey r := by
  unfold rowKey
  rw [dropKey_get r "동" (by decide), dropKey_get r "호수" (by decide)]

theorem noNl_empty : noNl "" := by decide

theorem noNl_get (r : Record) (c : String) (h : ∀ p ∈ r, noNl p.2) :
    noNl (r.get c) := by
  induction r with
  | nil => exact noNl_empty
  | cons p rest ih =>
    obtain ⟨k, w⟩ := p
    rw [Record.get_cons]
    by_cases h1 : k = c
    · rw [if_pos h1]
      exact h (k, w) (List.mem_cons_self _ _)
    · rw [if_neg h1]
      exact ih (fun q hq => h q (List.mem_cons_of_mem _ hq))

theorem mem_stripEnd (l : List Char) (a : Char) (h : a ∈ stripEnd l) :
    a ∈ l := by
  unfold stripEnd at h
  rw [List.mem_reverse] at h
  have h2 := (List.dropWhile_sublist (p := pyIsSpace) (l := l.reverse)).subset h
  rwa [List.mem_reverse] at h2

theorem mem_stripChars (l : List Char) (a : Char) (h : a ∈ stripChars l) :
    a ∈ l := by
  unfold stripChars at h
  exact (List.dropWhile_sublist (p := pyIsSpace) (l := l)).subset (mem_stripEnd _ _ h)

theorem noNl_pyStrip (s : String) (h : noNl s) : noNl (pyStrip s) := by
  unfold noNl pyStrip at *
  intro hmem
  have : ('\n' : Char) ∈ stripChars s.toList := by
    simpa using hmem
  exact h (mem_stripChars _ _ this)

/-! ## String machinery lemmas -/

theorem toList_asString (l : List Char) : (List.asString l).toList = l := rfl

theorem asString_toList (s : String) : List.asString s.toList = s := by
  cases s
  rfl

theorem dropWhile_head_not (p : Char → Bool) (l : List Char) (a : Char)
    (h : (l.dropWhile p).head? = some a) : p a = false := by
  induction l with
  | nil => simp [List.dropWhile] at h
  | cons x t ih =>
    by_cases hx : p x = true
    · rw [List.dropWhile_cons_of_pos hx] at h
      exact ih h
    · rw [List.dropWhile_cons_of_neg hx] at h
      simp at h
      subst h
      simpa using hx

theorem dropWhile_eq_self_of_head (p : Char → Bool) (l : List Char)
    (h : ∀ a, l.head? = some a → p a = false) : l.dropWhile p = l := by
  cases l with
  | nil => rfl
  | cons x t => exact List.dropWhile_cons_of_neg (by simp [h x rfl])

theorem stripEnd_pre (l : List Char) : stripEnd l <+: l := by
  unfold stripEnd
  have h := List.dropWhile_suffix (l := l.reverse) pyIsSpace
  have h2 := List.reverse_prefix.mpr h
  simpa using h2

theorem head?_of_pre (l1 l2 : List Char) (h : l1 <+: l2) (a : Char)
    (ha : l1.head? = some a) : l2.head? = some a := by
  obtain ⟨t, rfl⟩ := h
  cases l1 with
  | nil => simp at ha
  | cons x r => simpa using ha

theorem stripEnd_idem (l : List Char) : stripEnd (stripEnd l) = stripEnd l := by
  unfold stripEnd
  rw [List.reverse_reverse, List.dropWhile_idempotent]

theorem stripChars_idem (l : List Char) :
    stripChars (stripChars l) = stripChars l := by
  unfold stripChars
  have hd : (stripEnd (l.dropWhile pyIsSpace)).dropWhile pyIsSpace
      = stripEnd (l.dropWhile pyIsSpace) := by
    apply dropWhile_eq_self_of_head
    intro a ha
    have h2 := head?_of_pre _ _ (stripEnd_pre (l.dropWhile pyIsSpace)) a ha
    exact dropWhile_head_not pyIsSpace l a h2
  rw [hd, stripEnd_idem]

theorem stripChars_eq_nil_iff (l : List Char) :
    stripChars l = [] ↔ ∀ a ∈ l, pyIsSpace a = true := by
  unfold stripChars stripEnd
  constructor
  · intro h
    have h1 : (l.dropWhile pyIsSpace).reverse.dropWhile pyIsSpace = [] := by
      have := congrArg List.reverse h
      simpa using this
    have h2 : ∀ a ∈ (l.dropWhile pyIsSpace).reverse, pyIsSpace a = true := by
      intro a ha
      exact List.dropWhile_eq_nil_iff.mp h1 a ha
    intro a ha
    rw [← List.takeWhile_append_dropWhile (p := pyIsSpace) (l := l)] at ha
    rcases List.mem_append.mp ha with ha | ha
    · exact List.mem_takeWhile_imp ha
    · exact h2 a (List.mem_reverse.mpr ha)
  · intro h
    have h1 : l.dropWhile pyIsSpace = [] := List.dropWhile_eq_nil_iff.mpr h
    simp [h1]

theorem pyStrip_idem (s : String) : pyStrip (pyStrip s) = pyStrip s := by
  unfold pyStrip
  rw [toList_asString, stripChars_idem]

theorem pyStrip_eq_empty_iff (s : String) :
    pyStrip s = "" ↔ ∀ a ∈ s.toList, pyIsSpace a = true := by
  unfold pyStrip
  constructor
  · intro h
    have h2 : stripChars s.toList = [] := by
      have := congrArg String.toList h
      simpa [toList_asString] using this
    exact (stripChars_eq_nil_iff _).mp h2
  · intro h
    rw [(stripChars_eq_nil_iff _).mpr h]
    rfl

theorem splitOnChar_ne_nil (c : Char) (l : List Char) : splitOnChar c l ≠ [] := by
  cases l with
  | nil => simp [splitOnChar]
  | cons a rest =>
    simp only [splitOnChar]
    cases h : splitOnChar c rest with
    | nil => simp
    | cons g gs => by_cases hac : a = c <;> simp [hac]

theorem splitOnChar_cons_of_eq (c a : Char) (rest : List Char) (g : List Char)
    (gs : List (List Char)) (h : splitOnChar c rest = g :: gs) :
    splitOnChar c (a :: rest) =
      if a = c then [] :: g :: gs else (a :: g) :: gs := by
  simp only [splitOnChar, h]

theorem splitOnChar_dest (c : Char) (rest : List Char) :
    ∃ g gs, splitOnChar c rest = g :: gs := by
  cases hh : splitOnChar c rest with
  | nil => exact absurd hh (splitOnChar_ne_nil c rest)
  | cons g gs => exact ⟨g, gs, rfl⟩

theorem splitOnChar_sep_not_mem (c : Char) (l : List Char) :
    ∀ part ∈ splitOnChar c l, c ∉ part := by
  induction l with
  | nil =>
    intro part hp
    simp [splitOnChar] at hp
    simp [hp]
  | cons a rest ih =>
    intro part hp
    obtain ⟨g, gs, h⟩ := splitOnChar_dest c rest
    rw [splitOnChar_cons_of_eq c a rest g gs h] at hp
    by_cases hac : a = c
    · rw [if_pos hac] at hp
      rcases List.mem_cons.mp hp with rfl | hp
      · simp
      · exact ih part (by rw [h]; exact hp)
    · rw [if_neg hac] at hp
      rcases List.mem_cons.mp hp with rfl | hp
      · intro hmem
        rcases List.mem_cons.mp hmem with rfl | hmem
        · exact hac rfl
        · exact ih g (by rw [h]; exact List.mem_cons_self g gs) hmem
      · exact ih part (by rw [h]; exact List.mem_cons_of_mem g hp)

theorem splitOnChar_mem_subset (c : Char) (l : List Char) :
    ∀ part ∈ splitOnChar c l, ∀ a ∈ part, a ∈ l := by
  induction l with
  | nil =>
    intro part hp
    simp [splitOnChar] at hp
    simp [hp]
  | cons x rest ih =>
    intro part hp a ha
    obtain ⟨g, gs, h⟩ := splitOnChar_dest c rest
    rw [splitOnChar_cons_of_eq c x rest g gs h] at hp
    by_cases hxc : x = c
    · rw [if_pos hxc] at hp
      rcases List.mem_cons.mp hp with rfl | hp
      · simp at ha
      · exact List.mem_cons_of_mem x (ih part (by rw [h]; exact hp) a ha)
    · rw [if_neg hxc] at hp
      rcases List.mem_cons.mp hp with rfl | hp
      · rcases List.mem_cons.mp ha with rfl | ha
        · exact List.mem_cons_self a rest
        · exact List.mem_cons_of_mem x
            (ih g (by rw [h]; exact List.mem_cons_self g gs) a ha)
      · exact List.mem_cons_of_mem x
          (ih part (by rw [h]; exact List.mem_cons_of_mem g hp) a ha)

theorem splitOnChar_single (c : Char) (x : List Char) (h : c ∉ x) :
    splitOnChar c x = [x] := by
  induction x with
  | nil => rfl
  | cons a r ih =>
    have hac : ¬ (a = c) := fun hh => h (hh ▸ List.mem_cons_self a r)
    have hcr : c ∉ r := fun hh => h (List.mem_cons_of_mem a hh)
    rw [splitOnChar_cons_of_eq c a r r [] (ih hcr), if_neg hac]

theorem splitOnChar_append_cons (c : Char) (x t : List Char) (h : c ∉ x) :
    splitOnChar c (x ++ c :: t) = x :: splitOnChar c t := by
  induction x with
  | nil =>
    obtain ⟨g, gs, ht⟩ := splitOnChar_dest c t
    rw [List.nil_append, splitOnChar_cons_of_eq c c t g gs ht, if_pos rfl, ht]
  | cons a r ih =>
    have hac : ¬ (a = c) := fun hh => h (hh ▸ List.mem_cons_self a r)
    have hcr : c ∉ r := fun hh => h (List.mem_cons_of_mem a hh)
    rw [List.cons_append,
      splitOnChar_cons_of_eq c a (r ++ c :: t) r (splitOnChar c t) (ih hcr),
      if_neg hac]

theorem splitOnChar_joinChars (xs : List (List Char)) (hne : xs ≠ [])
    (h : ∀ x ∈ xs, '\n' ∉ x) : splitOnChar '\n' (joinChars xs) = xs := by
  induction xs with
  | nil => exact absurd rfl hne
  | cons x rest ih =>
    cases rest with
    | nil => exact splitOnChar_single '\n' x (h x (List.mem_cons_self x []))
    | cons y r =>
      rw [joinChars,
        splitOnChar_append_cons '\n' x _ (h x (List.mem_cons_self x (y :: r))),
        ih (by simp) (fun z hz => h z (List.mem_cons_of_mem x hz))]

theorem pySplit_pyJoin (xs : List String) (hne : xs ≠ [])
    (h : ∀ x ∈ xs, noNl x) : pySplit (pyJoin xs) = xs := by
  unfold pySplit pyJoin
  rw [toList_asString]
  rw [splitOnChar_joinChars (xs.map String.toList) (by simpa using hne)
    (by
      intro x hx
      rw [List.mem_map] at hx
      obtain ⟨s, hs, rfl⟩ := hx
      exact h s hs)]
  rw [List.map_map]
  have hid : ∀ s ∈ xs, (List.asString ∘ String.toList) s = s := by
    intro s _
    exact asString_toList s
  calc xs.map (List.asString ∘ String.toList) = xs.map id := List.map_congr_left hid
    _ = xs := List.map_id xs

theorem pyJoin_nil : pyJoin [] = "" := rfl

/-! ## Deduplication lemmas -/

theorem dedupAcc_append_right (acc : List String) (xs ys : List String) :
    dedupAcc acc (xs ++ ys) = dedupAcc (dedupAcc acc xs) ys := by
  induction xs generalizing acc with
  | nil => simp [dedupAcc]
  | cons v rest ih => simp [dedupAcc, ih]

theorem mem_dedupAcc (acc xs : List String) (x : String) :
    x ∈ dedupAcc acc xs ↔ x ∈ acc ∨ x ∈ xs := by
  induction xs generalizing acc with
  | nil => simp [dedupAcc]
  | cons v rest ih =>
    by_cases hv : v ∈ acc
    · simp [dedupAcc, hv, ih]
      constructor
      · rintro (h | h)
        · exact Or.inl h
        · exact Or.inr (Or.inr h)
      · rintro (h | h | h)
        · exact Or.inl h
        · exact Or.inl (h ▸ hv)
        · exact Or.inr h
    · simp [dedupAcc, hv, ih]
      constructor
      · rintro ((h | h) | h)
        · exact Or.inl h
        · exact Or.inr (Or.inl (by simpa using h))
        · exact Or.inr (Or.inr h)
      · rintro (h | h | h)
        · exact Or.inl (Or.inl h)
        · exact Or.inl (Or.inr (by simpa using h))
        · exact Or.inr h

theorem dedupAcc_nodup (acc xs : List String) (h : acc.Nodup) :
    (dedupAcc acc xs).Nodup := by
  induction xs generalizing acc with
  | nil => exact h
  | cons v rest ih =>
    by_cases hv : v ∈ acc
    · simpa [dedupAcc, hv] using ih acc h
    · have hacc : (acc ++ [v]).Nodup := by
        simp [List.nodup_append, h, hv]
      simpa [dedupAcc, hv] using ih (acc ++ [v]) hacc

theorem dedupAcc_eq_self (acc ys : List String) (h : ∀ y ∈ ys, y ∈ acc) :
    dedupAcc acc ys = acc := by
  induction ys with
  | nil => rfl
  | cons v rest ih =>
    have hv : v ∈ acc := h v (List.mem_cons_self v rest)
    simp [dedupAcc, hv]
    exact ih (fun y hy => h y (List.mem_cons_of_mem v hy))

theorem dedupAcc_of_nodup (acc xs : List String) (hx : xs.Nodup)
    (hdisj : ∀ x ∈ xs, x ∉ acc) : dedupAcc acc xs = acc ++ xs := by
  induction xs generalizing acc with
  | nil => simp [dedupAcc]
  | cons v rest ih =>
    have hv : v ∉ acc := hdisj v (List.mem_cons_self v rest)
    rw [List.nodup_cons] at hx
    simp only [dedupAcc, if_neg hv]
    rw [ih (acc ++ [v]) hx.2 (by
      intro x hxr
      simp only [List.mem_append, List.mem_singleton]
      rintro (hmem | rfl)
      · exact hdisj x (List.mem_cons_of_mem v hxr) hmem
      · exact hx.1 hxr)]
    simp

theorem dedupPreserveOrder_nodup (xs : List String) :
    (dedupPreserveOrder xs).Nodup :=
  dedupAcc_nodup [] xs List.nodup_nil

theorem mem_dedupPreserveOrder (xs : List String) (x : String) :
    x ∈ dedupPreserveOrder xs ↔ x ∈ xs := by
  unfold dedupPreserveOrder
  rw [mem_dedupAcc]
  simp

theorem dedupPreserveOrder_of_nodup (xs : List String) (h : xs.Nodup) :
    dedupPreserveOrder xs = xs := by
  unfold dedupPreserveOrder
  rw [dedupAcc_of_nodup [] xs h (by simp)]
  simp

theorem dedupPreserveOrder_append_subset (xs ys : List String)
    (hx : xs.Nodup) (hsub : ∀ y ∈ ys, y ∈ xs) :
    dedupPreserveOrder (xs ++ ys) = xs := by
  unfold dedupPreserveOrder
  rw [dedupAcc_append_right]
  rw [dedupAcc_of_nodup [] xs hx (by simp)]
  simp only [List.nil_append]
  exact dedupAcc_eq_self xs ys hsub

/-! ## Multiline merge lemmas -/

theorem pySplit_mem_chars (s part : String) (hp : part ∈ pySplit s)
    (a : Char) (ha : a ∈ part.toList) : a ∈ s.toList := by
  unfold pySplit at hp
  rw [List.mem_map] at hp
  obtain ⟨pl, hpl, rfl⟩ := hp
  rw [toList_asString] at ha
  exact splitOnChar_mem_subset '\n' s.toList pl hpl a ha

theorem pySplit_noNl (s part : String) (hp : part ∈ pySplit s) : noNl part := by
  unfold pySplit at hp
  rw [List.mem_map] at hp
  obtain ⟨pl, hpl, rfl⟩ := hp
  unfold noNl
  rw [toList_asString]
  exact splitOnChar_sep_not_mem '\n' s.toList pl hpl

theorem merge_multiline_eq (e : String) (nv : List String) :
    _merge_multiline_data e nv = mergeMultilineAmended e nv := by
  unfold _merge_multiline_data mergeMultilineAmended
  by_cases h : pyStrip e ≠ ""
  · simp only [if_pos h]
    rfl
  · push_neg at h
    have hall := (pyStrip_eq_empty_iff e).mp h
    have hlines : normalizeLines e = [] := by
      unfold normalizeLines
      rw [List.filter_eq_nil_iff]
      intro l hl
      rw [List.mem_map] at hl
      obtain ⟨part, hpart, rfl⟩ := hl
      simp only [ne_eq, decide_not, Bool.not_eq_true', Bool.not_eq_false,
        decide_eq_true_eq, not_not]
      apply (pyStrip_eq_empty_iff part).mpr
      intro a ha
      exact hall a (pySplit_mem_chars e part hpart a ha)
    rw [hlines]
    simp [h]

theorem normalizeLines_clean (e : String) :
    ∀ l ∈ normalizeLines e, isClean l := by
  intro l hl
  unfold normalizeLines at hl
  rw [List.mem_filter] at hl
  obtain ⟨hmem, hne⟩ := hl
  rw [List.mem_map] at hmem
  obtain ⟨part, hpart, rfl⟩ := hmem
  exact ⟨by simpa using hne, pyStrip_idem part,
    noNl_pyStrip part (pySplit_noNl e part hpart)⟩

theorem processedNew_clean (nv : List String) (h : ∀ v ∈ nv, noNl (pyStrip v)) :
    ∀ w ∈ (nv.map pyStrip).filter (fun v => v ≠ ""), isClean w := by
  intro w hw
  rw [List.mem_filter] at hw
  obtain ⟨hmem, hne⟩ := hw
  rw [List.mem_map] at hmem
  obtain ⟨v, hv, rfl⟩ := hmem
  exact ⟨by simpa using hne, pyStrip_idem v, h v hv⟩

theorem clean_processed_eq_self (V : List String) (h : ∀ v ∈ V, isClean v) :
    (V.map pyStrip).filter (fun v => v ≠ "") = V := by
  rw [List.map_congr_left (fun v hv => (h v hv).2.1), List.map_id']
  rw [List.filter_eq_self.mpr]
  intro a ha
  simpa using (h a ha).1

theorem pySplit_pyJoin_clean (xs : List String) (hne : xs ≠ [])
    (h : ∀ x ∈ xs, isClean x) : pySplit (pyJoin xs) = xs :=
  pySplit_pyJoin xs hne (fun x hx => (h x hx).2.2)

theorem normalizeLines_pyJoin_clean (xs : List String) (hne : xs ≠ [])
    (h : ∀ x ∈ xs, isClean x) : normalizeLines (pyJoin xs) = xs := by
  unfold normalizeLines
  rw [pySplit_pyJoin_clean xs hne h]
  exact clean_processed_eq_self xs h

theorem merge_multiline_stable (e : String) (V : List String)
    (hVne : V ≠ []) (hVclean : ∀ v ∈ V, isClean v) :
    _merge_multiline_data (_merge_multiline_data e V) V
      = _merge_multiline_data e V := by
  rw [merge_multiline_eq e V, merge_multiline_eq]
  unfold mergeMultilineAmended
  rw [clean_processed_eq_self V hVclean]
  have hAclean : ∀ x ∈ dedupPreserveOrder (normalizeLines e ++ V), isClean x := by
    intro x hx
    rcases List.mem_append.mp ((mem_dedupPreserveOrder _ _).mp hx) with h | h
    · exact normalizeLines_clean e x h
    · exact hVclean x h
  have hAne : dedupPreserveOrder (normalizeLines e ++ V) ≠ [] := by
    intro h0
    rcases V with _ | ⟨v, V⟩
    · exact hVne rfl
    · have hv : v ∈ dedupPreserveOrder (normalizeLines e ++ v :: V) :=
        (mem_dedupPreserveOrder _ _).mpr
          (List.mem_append_right _ (List.mem_cons_self v V))
      rw [h0] at hv
      simp at hv
  rw [normalizeLines_pyJoin_clean _ hAne hAclean]
  congr 1
  apply dedupPreserveOrder_append_subset _ V (dedupPreserveOrder_nodup _)
  intro y hy
  exact (mem_dedupPreserveOrder _ _).mpr (List.mem_append_right _ hy)

theorem merge_multiline_split_norm (e : String) (nv : List String)
    (h : ∀ v ∈ nv, noNl (pyStrip v)) (hres : _merge_multiline_data e nv ≠ "") :
    (pySplit (_merge_multiline_data e nv)).Nodup ∧
      ∀ p ∈ pySplit (_merge_multiline_data e nv), p ≠ "" ∧ pyStrip p = p := by
  rw [merge_multiline_eq e nv] at hres ⊢
  unfold mergeMultilineAmended at hres ⊢
  have hAclean :
      ∀ x ∈ dedupPreserveOrder
        (normalizeLines e ++ (nv.map pyStrip).filter (fun v => v ≠ "")),
        isClean x := by
    intro x hx
    rcases List.mem_append.mp ((mem_dedupPreserveOrder _ _).mp hx) with hh | hh
    · exact normalizeLines_clean e x hh
    · exact processedNew_clean nv h x hh
  have hAne :
      dedupPreserveOrder
        (normalizeLines e ++ (nv.map pyStrip).filter (fun v => v ≠ "")) ≠ [] := by
    intro h0
    rw [h0] at hres
    exact hres pyJoin_nil
  rw [pySplit_pyJoin_clean _ hAne hAclean]
  exact ⟨dedupPreserveOrder_nodup _,
    fun p hp => ⟨(hAclean p hp).1, (hAclean p hp).2.1⟩⟩

/-! ## Merge engine lemmas -/

theorem protected_ne_special (c : String) (hc : c ∈ _get_protected_columns) :
    c ≠ "KEY" ∧ c ≠ "uuid" ∧ c ≠ "대표자 이름" := by
  fin_cases hc <;> exact ⟨by decide, by decide, by decide⟩

theorem mapStep_get_ne (rk ak : List Record) (group : List Record)
    (m : String × String) (r : Record) (c : String) (h : m.2 ≠ c) :
    (mapStep rk ak group m r).get c = r.get c := by
  unfold mapStep
  by_cases h1 : m.2 ∈ _get_protected_columns
  · rw [if_pos h1]
  · rw [if_neg h1]
    by_cases h2 : (hasColumn rk m.1 && hasColumn ak m.2) = true
    · rw [if_pos h2]
      by_cases h3 : (collectNewValues group m.1).isEmpty
      · rw [if_pos h3]
      · rw [if_neg h3]
        exact Record.get_set_ne r m.2 _ c (fun hh => h hh.symm)
    · rw [if_neg h2]

theorem mapStep_get_protected (rk ak : List Record) (group : List Record)
    (m : String × String) (r : Record) (c : String)
    (hc : c ∈ _get_protected_columns) :
    (mapStep rk ak group m r).get c = r.get c := by
  by_cases h1 : m.2 ∈ _get_protected_columns
  · unfold mapStep
    rw [if_pos h1]
  · exact mapStep_get_ne rk ak group m r c (fun hh => h1 (hh ▸ hc))

theorem applyMappings_get_protected (rk ak : List Record) (group : List Record)
    (ms : List (String × String)) (r : Record) (c : String)
    (hc : c ∈ _get_protected_columns) :
    (applyMappings rk ak group ms r).get c = r.get c := by
  induction ms generalizing r with
  | nil => rfl
  | cons m rest ih =>
    rw [applyMappings, ih, mapStep_get_protected rk ak group m r c hc]

theorem applyMappings_get_ne (rk ak : List Record) (group : List Record)
    (ms : List (String × String)) (r : Record) (c : String)
    (h : ∀ m ∈ ms, m.2 ≠ c) :
    (applyMappings rk ak group ms r).get c = r.get c := by
  induction ms generalizing r with
  | nil => rfl
  | cons m rest ih =>
    rw [applyMappings, ih _ (fun q hq => h q (List.mem_cons_of_mem m hq)),
      mapStep_get_ne rk ak group m r c (h m (List.mem_cons_self m rest))]

theorem mapStep_hasKey_of (rk ak : List Record) (group : List Record)
    (m : String × String) (r : Record) (k : String) (h : r.hasKey k = true) :
    (mapStep rk ak group m r).hasKey k = true := by
  unfold mapStep
  by_cases h1 : m.2 ∈ _get_protected_columns
  · rw [if_pos h1]; exact h
  · rw [if_neg h1]
    by_cases h2 : (hasColumn rk m.1 && hasColumn ak m.2) = true
    · rw [if_pos h2]
      by_cases h3 : (collectNewValues group m.1).isEmpty
      · rw [if_pos h3]; exact h
      · rw [if_neg h3]
        exact (Record.hasKey_set_iff r m.2 _ k).mpr (Or.inl h)
    · rw [if_neg h2]; exact h

theorem mapStep_hasKey_cases (rk ak : List Record) (group : List Record)
    (m : String × String) (r : Record) (k : String)
    (h : (mapStep rk ak group m r).hasKey k = true) :
    r.hasKey k = true ∨ (k = m.2 ∧ hasColumn ak m.2 = true) := by
  unfold mapStep at h
  by_cases h1 : m.2 ∈ _get_protected_columns
  · rw [if_pos h1] at h; exact Or.inl h
  · rw [if_neg h1] at h
    by_cases h2 : (hasColumn rk m.1 && hasColumn ak m.2) = true
    · rw [if_pos h2] at h
      by_cases h3 : (collectNewValues group m.1).isEmpty
      · rw [if_pos h3] at h; exact Or.inl h
      · rw [if_neg h3] at h
        rcases (Record.hasKey_set_iff r m.2 _ k).mp h with hh | hh
        · exact Or.inl hh
        · exact Or.inr ⟨hh.symm, (Bool.and_eq_true _ _ |>.mp h2).2⟩
    · rw [if_neg h2] at h; exact Or.inl h

theorem applyMappings_hasKey_of (rk ak : List Record) (group : List Record)
    (ms : List (String × String)) (r : Record) (k : String)
    (h : r.hasKey k = true) :
    (applyMappings rk ak group ms r).hasKey k = true := by
  induction ms generalizing r with
  | nil => exact h
  | cons m rest ih =>
    rw [applyMappings]
    exact ih _ (mapStep_hasKey_of rk ak group m r k h)

theorem applyMappings_hasKey_cases (rk ak : List Record) (group : List Record)
    (ms : List (String × String)) (r : Record) (k : String)
    (h : (applyMappings rk ak group ms r).hasKey k = true) :
    r.hasKey k = true ∨ (∃ m ∈ ms, k = m.2 ∧ hasColumn ak m.2 = true) := by
  induction ms generalizing r with
  | nil => exact Or.inl h
  | cons m rest ih =>
    rw [applyMappings] at h
    rcases ih _ h with hh | ⟨q, hq, hkq⟩
    · rcases mapStep_hasKey_cases rk ak group m r k hh with hh2 | hh2
      · exact Or.inl hh2
      · exact Or.inr ⟨m, List.mem_cons_self m rest, hh2⟩
    · exact Or.inr ⟨q, List.mem_cons_of_mem m hq, hkq⟩

theorem setSpecialCols_get_ne (ak : List Record) (group : List (Nat × Record))
    (row : Record) (c : String) (h1 : c ≠ "uuid") (h2 : c ≠ "대표자 이름") :
    (setSpecialCols ak group row).get c = row.get c := by
  unfold setSpecialCols
  by_cases ha : hasColumn ak "대표자 이름" <;>
    by_cases hb : hasColumn ak "uuid" <;>
      simp only [ha, hb, if_pos, if_neg, Bool.false_eq_true, if_false, if_true] <;>
      try rw [Record.get_set_ne _ _ _ c h2] <;> try rfl
  · rw [Record.get_set_ne _ _ _ c h1]
  · rw [Record.get_set_ne _ _ _ c h1]

theorem setSpecialCols_hasKey_of (ak : List Record) (group : List (Nat × Record))
    (row : Record) (k : String) (h : row.hasKey k = true) :
    (setSpecialCols ak group row).hasKey k = true := by
  unfold setSpecialCols
  by_cases ha : hasColumn ak "대표자 이름" <;> by_cases hb : hasColumn ak "uuid" <;>
    simp only [ha, hb, Bool.false_eq_true, if_false, if_true] <;>
    first
      | exact h
      | exact (Record.hasKey_set_iff _ _ _ k).mpr (Or.inl h)
      | exact (Record.hasKey_set_iff _ _ _ k).mpr
          (Or.inl ((Record.hasKey_set_iff _ _ _ k).mpr (Or.inl h)))

theorem setSpecialCols_hasKey_cases (ak : List Record)
    (group : List (Nat × Record)) (row : Record) (k : String)
    (h : (setSpecialCols ak group row).hasKey k = true) :
    row.hasKey k = true ∨ (k = "uuid" ∧ hasColumn ak "uuid" = true) ∨
      (k = "대표자 이름" ∧ hasColumn ak "대표자 이름" = true) := by
  unfold setSpecialCols at h
  by_cases ha : hasColumn ak "대표자 이름" <;> by_cases hb : hasColumn ak "uuid" <;>
    simp only [ha, hb, Bool.false_eq_true, if_false, if_true] at h
  · rcases (Record.hasKey_set_iff _ _ _ k).mp h with hh | hh
    · rcases (Record.hasKey_set_iff _ _ _ k).mp hh with hh2 | hh2
      · exact Or.inl hh2
      · exact Or.inr (Or.inl ⟨hh2.symm, hb⟩)
    · exact Or.inr (Or.inr ⟨hh.symm, ha⟩)
  · rcases (Record.hasKey_set_iff _ _ _ k).mp h with hh | hh
    · exact Or.inl hh
    · exact Or.inr (Or.inr ⟨hh.symm, ha⟩)
  · rcases (Record.hasKey_set_iff _ _ _ k).mp h with hh | hh
    · exact Or.inl hh
    · exact Or.inr (Or.inl ⟨hh.symm, hb⟩)
  · exact Or.inl h

theorem setSpecialCols_get_uuid (ak : List Record) (group : List (Nat × Record))
    (row : Record) (h : hasColumn ak "uuid" = true) :
    (setSpecialCols ak group row).get "uuid"
      = _generate_uuid_from_df (group.map Prod.fst) := by
  unfold setSpecialCols
  by_cases ha : hasColumn ak "대표자 이름" <;>
    simp only [ha, h, Bool.false_eq_true, if_false, if_true]
  · rw [Record.get_set_ne _ _ _ "uuid" (by decide)]
    exact Record.get_set_self row "uuid" _
  · exact Record.get_set_self row "uuid" _

theorem setSpecialCols_get_rep (ak : List Record) (group : List (Nat × Record))
    (row : Record) (h : hasColumn ak "대표자 이름" = true) :
    (setSpecialCols ak group row).get "대표자 이름"
      = _extract_representatives (group.map Prod.snd) := by
  unfold setSpecialCols
  rw [if_pos h]
  exact Record.get_set_self _ "대표자 이름" _

theorem processAdminRow_unmatched (rk ak : List Record)
    (mappings : List (String × String)) (row : Record)
    (h : groupFor rk (row.get "KEY") = []) :
    processAdminRow rk ak mappings row = row := by
  unfold processAdminRow
  rw [h]
  simp

theorem processAdminRow_get_protected (rk ak : List Record)
    (mappings : List (String × String)) (row : Record) (c : String)
    (hc : c ∈ _get_protected_columns) :
    (processAdminRow rk ak mappings row).get c = row.get c := by
  obtain ⟨hK, hu, hr⟩ := protected_ne_special c hc
  unfold processAdminRow
  by_cases hg : (groupFor rk (row.get "KEY")).isEmpty
  · rw [if_pos hg]
  · rw [if_neg hg]
    rw [applyMappings_get_protected _ _ _ _ _ c hc]
    exact setSpecialCols_get_ne ak _ row c hu hr

theorem mergeRowsWith_length (mappings : List (String × String))
    (R A : List Record) : (mergeRowsWith mappings R A).length = A.length := by
  unfold mergeRowsWith
  simp

theorem mergeRowsWith_getElem? (mappings : List (String × String))
    (R A : List Record) (i : Nat) :
    (mergeRowsWith mappings R A)[i]? = (A[i]?).map (fun a =>
      dropKey (processAdminRow (R.map addKey) (A.map addKey) mappings (addKey a))) := by
  unfold mergeRowsWith
  rw [List.getElem?_map, List.getElem?_map, Option.map_map]
  rfl

theorem rowKey_mem_of_groupFor (R : List Record) (key : String)
    (p : Nat × Record) (hp : p ∈ groupFor (R.map addKey) key) :
    ∃ r ∈ R, p.2 = addKey r ∧ rowKey r = key := by
  unfold groupFor at hp
  rw [List.mem_filter] at hp
  obtain ⟨hmem, hkey⟩ := hp
  have h2 := List.mem_enum_iff_getElem?.mp hmem
  have h3 : p.2 ∈ R.map addKey := List.getElem?_mem h2
  rw [List.mem_map] at h3
  obtain ⟨r, hr, hzr⟩ := h3
  have h4 : p.2.get "KEY" = key := by simpa using hkey
  rw [← hzr, addKey_get_KEY] at h4
  exact ⟨r, hr, hzr.symm, h4⟩

theorem groupFor_eq_nil (R : List Record) (key : String)
    (h : ∀ r ∈ R, rowKey r ≠ key) : groupFor (R.map addKey) key = [] := by
  cases hg : groupFor (R.map addKey) key with
  | nil => rfl
  | cons p ps =>
    obtain ⟨r, hr, _, hkey⟩ := rowKey_mem_of_groupFor R key p
      (by rw [hg]; exact List.mem_cons_self p ps)
    exact absurd hkey (h r hr)

theorem dropKey_addKey_of_no_KEY (r : Record) (h : r.hasKey "KEY" = false) :
    dropKey (addKey r) = r := by
  unfold addKey
  rw [Record.set_of_not_hasKey r "KEY" _ h, dropKey_append,
    dropKey_of_not_hasKey r h]
  simp [dropKey]

theorem adminAfterRun_nil (A : List Record) : adminAfterRun [] A = A := rfl

theorem adminAfterRun_cons (r : Record) (rs : List Record) (A : List Record) :
    adminAfterRun (r :: rs) A = mergeRowsWith _get_column_mappings (r :: rs) A := rfl

theorem mergeRowsWith_protected_cell (mappings : List (String × String))
    (R A : List Record) (c : String) (hc : c ∈ _get_protected_columns)
    (i : Nat) :
    ((mergeRowsWith mappings R A).getD i []).get c = (A.getD i []).get c := by
  rw [List.getD_eq_getElem?_getD, List.getD_eq_getElem?_getD,
    mergeRowsWith_getElem?]
  cases ha : A[i]? with
  | none => rfl
  | some a =>
    simp only [Option.map_some', Option.getD_some]
    obtain ⟨hK, _, _⟩ := protected_ne_special c hc
    rw [dropKey_get _ c hK, processAdminRow_get_protected _ _ _ _ c hc,
      addKey_get a c hK]

/-! ## Claims -/

/-- C1 (counterexample to the claim as stated): merging the existing value
`" A "` with no new values returns `"A"`, but the claimed policy — split
the existing value on newline, append the trimmed non-empty new values,
dedup, rejoin — would keep `" A "` untrimmed.  The code also strips each
existing line. -/
theorem claim_C1_counterexample :
    _merge_multiline_data " A " [] = "A" ∧
    mergeMultilineClaimed " A " [] = " A " ∧
    (" A " : String) ≠ "A" :=
  ⟨by decide, by decide, by decide⟩

/-- C1 (amended): for every existing cell value and list of new values, the
multiline merge splits the existing value on newline, trims each line and
discards blank lines, appends the trimmed non-empty new values, removes
duplicates while preserving first-seen order, and rejoins with newline; in
particular merging existing `"A\nB"` with `["B", "C"]` gives
`"A\nB\nC"`. -/
theorem claim_C1 :
    (∀ (existing_value : String) (new_values : List String),
      _merge_multiline_data existing_value new_values
        = mergeMultilineAmended existing_value new_values) ∧
    _merge_multiline_data "A\nB" ["B", "C"] = "A\nB\nC" :=
  ⟨merge_multiline_eq, by decide⟩

/-- C2: for every protected column and every admin row, the merge leaves
the column's value unchanged, whatever the column-mapping table contains —
a mapping entry that targets a protected column is skipped.  Stated for an
arbitrary mapping table and for the engine with its configured table. -/
theorem claim_C2 (mappings : List (String × String)) (R A : List Record)
    (c : String) (hc : c ∈ _get_protected_columns) (i : Nat) :
    ((mergeRowsWith mappings R A).getD i []).get c = (A.getD i []).get c ∧
    ((adminAfterRun R A).getD i []).get c = (A.getD i []).get c := by
  refine ⟨mergeRowsWith_protected_cell mappings R A c hc i, ?_⟩
  cases R with
  | nil => rw [adminAfterRun_nil]
  | cons r rs =>
    rw [adminAfterRun_cons]
    exact mergeRowsWith_protected_cell _ _ A c hc i

/-- C2 witness: a mapping table that targets the protected column `동`
still leaves `동` untouched on a concrete row. -/
theorem claim_C2_witness :
    ((mergeRowsWith [("이름", "동")] [[("동", "1"), ("호수", "2"), ("이름", "x")]]
        [[("동", "1"), ("호수", "2")]]).getD 0 []).get "동"
      = (([[("동", "1"), ("호수", "2")]] : List Record).getD 0 []).get "동" ∧
    ((adminAfterRun [[("동", "1"), ("호수", "2"), ("이름", "x")]]
        [[("동", "1"), ("호수", "2")]]).getD 0 []).get "동"
      = (([[("동", "1"), ("호수", "2")]] : List Record).getD 0 []).get "동" :=
  claim_C2 [("이름", "동")] [[("동", "1"), ("호수", "2"), ("이름", "x")]]
    [[("동", "1"), ("호수", "2")]] "동" (by decide) 0

/-- C3 (counterexample to the claim as stated): an admin row that itself
carries a column literally named `KEY` is not returned exactly equal even
when its key matches no response group — `_create_key` overwrites that
column and `_update_admin_sheet` drops it, so the written row loses the
pair `("KEY", "x")`. -/
theorem claim_C3_counterexample :
    (adminAfterRun [[("동", "9"), ("호수", "8")]]
        [[("동", "1"), ("호수", "2"), ("KEY", "x")]])[0]?
      = some [("동", "1"), ("호수", "2")] ∧
    (∀ r ∈ ([[("동", "9"), ("호수", "8")]] : List Record),
      rowKey r ≠ rowKey [("동", "1"), ("호수", "2"), ("KEY", "x")]) ∧
    ([("동", "1"), ("호수", "2")] : Record)
      ≠ [("동", "1"), ("호수", "2"), ("KEY", "x")] :=
  ⟨by decide, by decide, by decide⟩

/-- C3 (amended): the merge outputs a table of the same length and row
order, and — provided no admin record carries a column literally named
`KEY` (the transient join column) — every admin row whose key matches no
response group is output exactly equal to its input row. -/
theorem claim_C3 (R A : List Record) (hA : ∀ r ∈ A, r.hasKey "KEY" = false) :
    (adminAfterRun R A).length = A.length ∧
    ∀ (i : Nat) (a : Record), A[i]? = some a →
      (∀ r ∈ R, rowKey r ≠ rowKey a) →
      (adminAfterRun R A)[i]? = some a := by
  constructor
  · cases R with
    | nil => rw [adminAfterRun_nil]
    | cons r rs =>
      rw [adminAfterRun_cons]
      exact mergeRowsWith_length _ _ A
  · intro i a ha hmatch
    cases R with
    | nil => rw [adminAfterRun_nil]; exact ha
    | cons r rs =>
      rw [adminAfterRun_cons, mergeRowsWith_getElem?, ha]
      simp only [Option.map_some']
      congr 1
      have hgroup : groupFor ((r :: rs).map addKey) ((addKey a).get "KEY") = [] := by
        rw [addKey_get_KEY]
        exact groupFor_eq_nil (r :: rs) (rowKey a) hmatch
      rw [processAdminRow_unmatched _ _ _ _ hgroup]
      exact dropKey_addKey_of_no_KEY a (hA a (List.getElem?_mem ha))

/-- C3 witness: a concrete unmatched, `KEY`-free admin row passes through
unchanged, and the output length matches. -/
theorem claim_C3_witness :
    (adminAfterRun [[("동", "9"), ("호수", "8")]]
        [[("동", "1"), ("호수", "2"), ("이름", "x")]]).length = 1 ∧
    (adminAfterRun [[("동", "9"), ("호수", "8")]]
        [[("동", "1"), ("호수", "2"), ("이름", "x")]])[0]?
      = some [("동", "1"), ("호수", "2"), ("이름", "x")] := by
  have h := claim_C3 [[("동", "9"), ("호수", "8")]]
    [[("동", "1"), ("호수", "2"), ("이름", "x")]] (by decide)
  exact ⟨h.1, h.2 0 [("동", "1"), ("호수", "2"), ("이름", "x")] rfl (by decide)⟩

/-- C4: an empty response set short-circuits the engine — no merge result
is handed to the sheet writer (`none`, no write) and the admin table after
the run is identical to its input. -/
theorem claim_C4 (A : List Record) :
    merge_into_admin_sheet [] A = none ∧ adminAfterRun [] A = A :=
  ⟨rfl, rfl⟩

theorem retryAttempts_none (fetch : Nat → Option Nat) (start rem : Nat)
    (h : ∀ k, start ≤ k → k < start + rem → fetch k = none) :
    retryAttempts fetch start rem = none := by
  induction rem generalizing start with
  | zero => rfl
  | succ n ih =>
    unfold retryAttempts
    rw [h start (Nat.le_refl start) (by omega)]
    exact ih (start + 1) (fun k hk1 hk2 => h k (by omega) (by omega))

/-- C7: if the backup copy never resolves within the 5-attempt retry
budget, the run raises a fatal error, the merge engine never runs, and no
write reaches the admin table. -/
theorem claim_C7 (fetch : Nat → Option Nat) (R A : List Record)
    (h : ∀ k, k < 5 → fetch k = none) :
    process_sheets fetch R A = ⟨true, false, []⟩ := by
  unfold process_sheets get_worksheet_by_id_with_retry
  rw [retryAttempts_none fetch 0 5 (fun k _ hk => h k (by omega))]

/-- C7 witness: a gateway that never resolves makes the run abort with no
merge and no write. -/
theorem claim_C7_witness :
    process_sheets (fun _ => none) [[("동", "1"), ("호수", "2")]]
      [[("동", "1"), ("호수", "2")]] = ⟨true, false, []⟩ :=
  claim_C7 (fun _ => none) [[("동", "1"), ("호수", "2")]]
    [[("동", "1"), ("호수", "2")]] (fun _ _ => rfl)

theorem findHeaderRow1_none (l : List (List String)) (i : Nat)
    (h : ∀ row ∈ l, headerRowPred row = false) : findHeaderRow1 l i = none := by
  induction l generalizing i with
  | nil => rfl
  | cons r rest ih =>
    unfold findHeaderRow1
    rw [if_neg (by simp [h r (List.mem_cons_self r rest)])]
    exact ih (i + 1) (fun row hrow => h row (List.mem_cons_of_mem r hrow))

theorem findHeaderRow1_first (l : List (List String)) (i j : Nat)
    (row : List String) (hj : l[j]? = some row)
    (hrow : headerRowPred row = true)
    (hbefore : ∀ (k : Nat) (rk : List String), k < j → l[k]? = some rk →
      headerRowPred rk = false) :
    findHeaderRow1 l i = some (i + j + 1) := by
  induction l generalizing i j with
  | nil => simp at hj
  | cons r rest ih =>
    cases j with
    | zero =>
      simp only [List.getElem?_cons_zero, Option.some.injEq] at hj
      subst hj
      unfold findHeaderRow1
      rw [if_pos hrow]
    | succ j' =>
      have hr : headerRowPred r = false :=
        hbefore 0 r (Nat.succ_pos j') (by simp)
      unfold findHeaderRow1
      rw [if_neg (by simp [hr])]
      have := ih (i + 1) j' (by simpa using hj) (fun k rk hk hkr =>
        hbefore (k + 1) rk (by omega) (by simpa using hkr))
      rw [this]
      congr 1
      omega

/-- C8: the sheet writer finds the header row as the first raw row
containing both the `동` and `호수` labels and starts the data region
immediately below it; when no such row exists it falls back to header row 3
(data from row 4). -/
theorem claim_C8 (all_data : List (List String)) :
    ((∀ row ∈ all_data, headerRowPred row = false) →
      headerRowIdx all_data = 3 ∧ dataStartRow all_data = 4) ∧
    (∀ (j : Nat) (row : List String), all_data[j]? = some row →
      headerRowPred row = true →
      (∀ (k : Nat) (rk : List String), k < j → all_data[k]? = some rk →
        headerRowPred rk = false) →
      headerRowIdx all_data = j + 1 ∧ dataStartRow all_data = j + 2) := by
  constructor
  · intro h
    unfold dataStartRow headerRowIdx
    rw [findHeaderRow1_none all_data 0 h]
    exact ⟨rfl, rfl⟩
  · intro j row hj hrow hbefore
    unfold dataStartRow headerRowIdx
    rw [findHeaderRow1_first all_data 0 j row hj hrow hbefore]
    simp only [Option.getD_some]
    omega


/-- C8 witness: a table whose second row carries `동` and `호수` labels gets
header row 2 and data start 3; a table without labels falls back to header
row 3 and data start 4. -/
theorem claim_C8_witness :
    (headerRowIdx [["t"], ["동", "호수"], ["1", "2"]] = 2 ∧
      dataStartRow [["t"], ["동", "호수"], ["1", "2"]] = 3) ∧
    (headerRowIdx [["a"], ["b"]] = 3 ∧ dataStartRow [["a"], ["b"]] = 4) := by
  constructor
  · refine (claim_C8 [["t"], ["동", "호수"], ["1", "2"]]).2 1 ["동", "호수"] rfl
      (by decide) ?_
    intro k rk hk hkr
    have hk0 : k = 0 := by omega
    subst hk0
    simp only [List.getElem?_cons_zero, Option.some.injEq] at hkr
    subst hkr
    decide
  · exact (claim_C8 [["a"], ["b"]]).1 (by decide)

theorem not_isEmpty_of_ne_nil {α : Type} (l : List α) (h : l ≠ []) :
    ¬ (l.isEmpty = true) := by
  cases l with
  | nil => exact absurd rfl h
  | cons x xs => simp

theorem mappings_ne_rep : ∀ m ∈ _get_column_mappings, m.2 ≠ "대표자 이름" := by
  decide

theorem mappings_ne_uuid : ∀ m ∈ _get_column_mappings, m.2 ≠ "uuid" := by
  decide

theorem adminRun_matched_rep (R A : List Record) (i : Nat) (a : Record)
    (hR : R ≠ []) (ha : A[i]? = some a)
    (hg : groupFor (R.map addKey) (rowKey a) ≠ [])
    (hcol : hasColumn (A.map addKey) "대표자 이름" = true) :
    ((adminAfterRun R A).getD i []).get "대표자 이름"
      = _extract_representatives
          ((groupFor (R.map addKey) (rowKey a)).map Prod.snd) := by
  cases R with
  | nil => exact absurd rfl hR
  | cons r rs =>
    rw [adminAfterRun_cons, List.getD_eq_getElem?_getD, mergeRowsWith_getElem?,
      ha]
    simp only [Option.map_some', Option.getD_some]
    rw [dropKey_get _ _ (by decide)]
    unfold processAdminRow
    rw [addKey_get_KEY]
    rw [if_neg (not_isEmpty_of_ne_nil _ hg)]
    rw [applyMappings_get_ne _ _ _ _ _ _ mappings_ne_rep]
    exact setSpecialCols_get_rep _ _ _ hcol

theorem adminRun_matched_uuid (R A : List Record) (i : Nat) (a : Record)
    (hR : R ≠ []) (ha : A[i]? = some a)
    (hg : groupFor (R.map addKey) (rowKey a) ≠ [])
    (hcol : hasColumn (A.map addKey) "uuid" = true) :
    ((adminAfterRun R A).getD i []).get "uuid"
      = _generate_uuid_from_df
          ((groupFor (R.map addKey) (rowKey a)).map Prod.fst) := by
  cases R with
  | nil => exact absurd rfl hR
  | cons r rs =>
    rw [adminAfterRun_cons, List.getD_eq_getElem?_getD, mergeRowsWith_getElem?,
      ha]
    simp only [Option.map_some', Option.getD_some]
    rw [dropKey_get _ _ (by decide)]
    unfold processAdminRow
    rw [addKey_get_KEY]
    rw [if_neg (not_isEmpty_of_ne_nil _ hg)]
    rw [applyMappings_get_ne _ _ _ _ _ _ mappings_ne_uuid]
    exact setSpecialCols_get_uuid _ _ _ hcol

theorem repList_eq (rs : List Record) :
    (rs.filterMap (fun response =>
      if truthyFlag response then
        if pyStrip (response.get "이름") ≠ ""
          then some (pyStrip (response.get "이름")) else none
      else none))
    = ((rs.filter (fun r => decide (truthyFlag r))).map
        (fun r => pyStrip (r.get "이름"))).filter (fun n => n ≠ "") := by
  induction rs with
  | nil => rfl
  | cons r rest ih =>
    by_cases ht : truthyFlag r
    · by_cases hn : pyStrip (r.get "이름") ≠ ""
      · simp only [List.filterMap_cons, List.filter_cons, ht, hn]
        simp [ht, hn]
        simpa using ih
      · simp only [List.filterMap_cons, List.filter_cons, ht, hn]
        simp [ht, hn]
        simpa using ih
    · simp only [List.filterMap_cons, List.filter_cons, ht]
      simp [ht]
      simpa using ih

theorem extract_eq_repAmended (rs : List Record) :
    _extract_representatives rs = repAmended rs := by
  unfold _extract_representatives repAmended
  rw [repList_eq rs]
  by_cases h :
      (((rs.filter (fun r => decide (truthyFlag r))).map
        (fun r => pyStrip (r.get "이름"))).filter (fun n => n ≠ "")) = []
  · rw [h]
    rfl
  · rw [if_neg (not_isEmpty_of_ne_nil _ h)]

theorem extract_representatives_empty (rs : List Record)
    (h : ∀ r ∈ rs, ¬ (truthyFlag r ∧ pyStrip (r.get "이름") ≠ "")) :
    _extract_representatives rs = "" := by
  unfold _extract_representatives
  have hnil : (rs.filterMap (fun response =>
      if truthyFlag response then
        if pyStrip (response.get "이름") ≠ ""
          then some (pyStrip (response.get "이름")) else none
      else none)) = [] := by
    rw [List.filterMap_eq_nil_iff]
    intro r hr
    by_cases ht : truthyFlag r
    · have hn : ¬ (pyStrip (r.get "이름") ≠ "") := fun hn => h r hr ⟨ht, hn⟩
      simp [ht, hn]
    · simp [ht]
  rw [hnil]
  rfl

/-- C6 (counterexample to the claim as stated): in a group whose two
responses both carry a truthy flag but whose second name is blank, the
merged representative cell is `"A"`, while the claimed wording — the
newline-joined names of exactly the truthy-flagged records — would give
`"A\n"`.  The code additionally trims names and drops blank ones. -/
theorem claim_C6_counterexample :
    ((adminAfterRun
        [[("동", "1"), ("호수", "2"), ("세대 대표자 여부", "예"), ("이름", "A")],
         [("동", "1"), ("호수", "2"), ("세대 대표자 여부", "예"), ("이름", "")]]
        [[("동", "1"), ("호수", "2"), ("대표자 이름", "old")]]).getD 0 []).get
      "대표자 이름" = "A" ∧
    repClaimed ((groupFor
        (([[("동", "1"), ("호수", "2"), ("세대 대표자 여부", "예"), ("이름", "A")],
           [("동", "1"), ("호수", "2"), ("세대 대표자 여부", "예"), ("이름", "")]] :
          List Record).map addKey)
        (rowKey [("동", "1"), ("호수", "2"), ("대표자 이름", "old")])).map Prod.snd)
      = "A\n" ∧
    ("A" : String) ≠ "A\n" :=
  ⟨by decide, by decide, by decide⟩

/-- C6 (amended): when the admin schema has a `대표자 이름` column, every
matched admin row gets it set to the newline-joined trimmed names of
exactly those responses of its group whose `세대 대표자 여부` value, trimmed
and lowercased, is one of 예/yes/y/o/대표/true/1 and whose trimmed name is
non-empty; all other flag values (including blank) count as false.  The
scenario flags 예/blank/아니오 with names A/B/C yields `"A"`. -/
theorem claim_C6 :
    (∀ (R A : List Record) (i : Nat) (a : Record), R ≠ [] → A[i]? = some a →
      hasColumn (A.map addKey) "대표자 이름" = true →
      groupFor (R.map addKey) (rowKey a) ≠ [] →
      ((adminAfterRun R A).getD i []).get "대표자 이름"
        = repAmended ((groupFor (R.map addKey) (rowKey a)).map Prod.snd)) ∧
    _extract_representatives
      [[("세대 대표자 여부", "예"), ("이름", "A")],
       [("세대 대표자 여부", ""), ("이름", "B")],
       [("세대 대표자 여부", "아니오"), ("이름", "C")]] = "A" := by
  constructor
  · intro R A i a hR ha hcol hg
    rw [adminRun_matched_rep R A i a hR ha hg hcol]
    exact extract_eq_repAmended _
  · decide

/-- C6 witness: the amended statement at the spec's scenario, embedded in a
full merge run. -/
theorem claim_C6_witness :
    ((adminAfterRun
        [[("동", "1"), ("호수", "2"), ("세대 대표자 여부", "예"), ("이름", "A")],
         [("동", "1"), ("호수", "2"), ("세대 대표자 여부", ""), ("이름", "B")],
         [("동", "1"), ("호수", "2"), ("세대 대표자 여부", "아니오"), ("이름", "C")]]
        [[("동", "1"), ("호수", "2"), ("대표자 이름", "old")]]).getD 0 []).get
      "대표자 이름"
      = repAmended ((groupFor
          (([[("동", "1"), ("호수", "2"), ("세대 대표자 여부", "예"), ("이름", "A")],
             [("동", "1"), ("호수", "2"), ("세대 대표자 여부", ""), ("이름", "B")],
             [("동", "1"), ("호수", "2"), ("세대 대표자 여부", "아니오"), ("이름", "C")]] :
            List Record).map addKey)
          (rowKey [("동", "1"), ("호수", "2"), ("대표자 이름", "old")])).map Prod.snd) :=
  claim_C6.1
    [[("동", "1"), ("호수", "2"), ("세대 대표자 여부", "예"), ("이름", "A")],
     [("동", "1"), ("호수", "2"), ("세대 대표자 여부", ""), ("이름", "B")],
     [("동", "1"), ("호수", "2"), ("세대 대표자 여부", "아니오"), ("이름", "C")]]
    [[("동", "1"), ("호수", "2"), ("대표자 이름", "old")]] 0
    [("동", "1"), ("호수", "2"), ("대표자 이름", "old")]
    (by decide) (by decide) (by decide) (by decide)

/-- C9: for every matched admin row, the synthetic `uuid` and the
`대표자 이름` columns (when the admin schema has them) are overwritten
wholesale from the response group — the resulting cells are functions of
the group alone, prior content discarded — and the representative cell is
the empty string whenever no response of the group combines a truthy flag
with a non-empty trimmed name. -/
theorem claim_C9 (R A : List Record) (i : Nat) (a : Record) (hR : R ≠ [])
    (ha : A[i]? = some a) (hg : groupFor (R.map addKey) (rowKey a) ≠ []) :
    (hasColumn (A.map addKey) "uuid" = true →
      ((adminAfterRun R A).getD i []).get "uuid"
        = _generate_uuid_from_df
            ((groupFor (R.map addKey) (rowKey a)).map Prod.fst)) ∧
    (hasColumn (A.map addKey) "대표자 이름" = true →
      ((adminAfterRun R A).getD i []).get "대표자 이름"
        = _extract_representatives
            ((groupFor (R.map addKey) (rowKey a)).map Prod.snd) ∧
      ((∀ r ∈ (groupFor (R.map addKey) (rowKey a)).map Prod.snd,
          ¬ (truthyFlag r ∧ pyStrip (r.get "이름") ≠ "")) →
        ((adminAfterRun R A).getD i []).get "대표자 이름" = "")) := by
  refine ⟨fun hcol => adminRun_matched_uuid R A i a hR ha hg hcol,
    fun hcol => ⟨adminRun_matched_rep R A i a hR ha hg hcol, fun hnone => ?_⟩⟩
  rw [adminRun_matched_rep R A i a hR ha hg hcol]
  exact extract_representatives_empty _ hnone

/-- C9 witness: a matched row with `uuid` and `대표자 이름` columns gets the
group row numbers and an empty representative cell (no truthy flag with a
non-empty name in the group). -/
theorem claim_C9_witness :
    ((adminAfterRun
        [[("동", "1"), ("호수", "2"), ("세대 대표자 여부", "아니오"), ("이름", "A")]]
        [[("동", "1"), ("호수", "2"), ("uuid", "zz"), ("대표자 이름", "old")]]).getD
      0 []).get "uuid"
      = _generate_uuid_from_df ((groupFor
          (([[("동", "1"), ("호수", "2"), ("세대 대표자 여부", "아니오"), ("이름", "A")]] :
            List Record).map addKey)
          (rowKey [("동", "1"), ("호수", "2"), ("uuid", "zz"), ("대표자 이름", "old")])).map
          Prod.fst) ∧
    ((adminAfterRun
        [[("동", "1"), ("호수", "2"), ("세대 대표자 여부", "아니오"), ("이름", "A")]]
        [[("동", "1"), ("호수", "2"), ("uuid", "zz"), ("대표자 이름", "old")]]).getD
      0 []).get "대표자 이름" = "" := by
  have h := claim_C9
    [[("동", "1"), ("호수", "2"), ("세대 대표자 여부", "아니오"), ("이름", "A")]]
    [[("동", "1"), ("호수", "2"), ("uuid", "zz"), ("대표자 이름", "old")]] 0
    [("동", "1"), ("호수", "2"), ("uuid", "zz"), ("대표자 이름", "old")]
    (by decide) (by decide) (by decide)
  exact ⟨h.1 (by decide), (h.2 (by decide)).2 (by decide)⟩

/-- C10 (counterexample to the claim as stated): with an empty existing
value and no new values — the no-newline hypothesis holds vacuously — the
merge returns `""`, and splitting `""` on newline gives `[""]`, which
contains an empty entry. -/
theorem claim_C10_counterexample :
    _merge_multiline_data "" [] = "" ∧
    pySplit (_merge_multiline_data "" []) = [""] ∧
    ("" : String) ∈ pySplit (_merge_multiline_data "" []) :=
  ⟨rfl, by decide, by decide⟩

/-- C10 (amended): for every existing value and every list of new values
none of which contains an internal newline after trimming, whenever the
string returned by the multiline merge is non-empty, splitting it on
newline yields no duplicate entries, no empty entries, and only entries
stable under trimming. -/
theorem claim_C10 (existing_value : String) (new_values : List String)
    (h : ∀ v ∈ new_values, noNl (pyStrip v))
    (hres : _merge_multiline_data existing_value new_values ≠ "") :
    (pySplit (_merge_multiline_data existing_value new_values)).Nodup ∧
    ∀ p ∈ pySplit (_merge_multiline_data existing_value new_values),
      p ≠ "" ∧ pyStrip p = p :=
  merge_multiline_split_norm existing_value new_values h hres

/-- C10 witness: a concrete merge with a duplicate new value satisfies the
amended invariant. -/
theorem claim_C10_witness :
    (∀ v ∈ ["b", "a"], noNl (pyStrip v)) ∧
    _merge_multiline_data "a" ["b", "a"] ≠ "" ∧
    ((pySplit (_merge_multiline_data "a" ["b", "a"])).Nodup ∧
      ∀ p ∈ pySplit (_merge_multiline_data "a" ["b", "a"]),
        p ≠ "" ∧ pyStrip p = p) :=
  ⟨by decide, by decide, claim_C10 "a" ["b", "a"] (by decide) (by decide)⟩

/-! ## Idempotence of rerun -/

theorem noNl_append (a b : String) (ha : noNl a) (hb : noNl b) :
    noNl (a ++ b) := by
  unfold noNl at *
  intro h
  rw [show (a ++ b).toList = a.toList ++ b.toList from String.data_append a b,
    List.mem_append] at h
  rcases h with h | h
  · exact ha h
  · exact hb h

theorem noNl_rowKey (r : Record) (h : ∀ p ∈ r, noNl p.2) : noNl (rowKey r) := by
  unfold rowKey
  exact noNl_append _ _
    (noNl_append _ _ (noNl_pyStrip _ (noNl_get r "동" h)) (by decide))
    (noNl_pyStrip _ (noNl_get r "호수" h))

theorem addKey_values_noNl (r : Record) (h : ∀ p ∈ r, noNl p.2) :
    ∀ c, noNl ((addKey r).get c) := by
  intro c
  by_cases hc : c = "KEY"
  · subst hc
    rw [addKey_get_KEY]
    exact noNl_rowKey r h
  · rw [addKey_get r c hc]
    exact noNl_get r c h

theorem groupFor_mem_list (rk : List Record) (key : String) (p : Nat × Record)
    (hp : p ∈ groupFor rk key) : p.2 ∈ rk := by
  unfold groupFor at hp
  rw [List.mem_filter] at hp
  exact List.getElem?_mem (List.mem_enum_iff_getElem?.mp hp.1)

theorem collectNewValues_clean (group : List Record) (rc : String)
    (hvals : ∀ r ∈ group, ∀ c, noNl (Record.get r c)) :
    ∀ v ∈ collectNewValues group rc, isClean v := by
  intro v hv
  unfold collectNewValues at hv
  rw [List.mem_filter] at hv
  obtain ⟨hmem, hne⟩ := hv
  rw [List.mem_map] at hmem
  obtain ⟨r, hr, rfl⟩ := hmem
  exact ⟨by simpa using hne, pyStrip_idem _, noNl_pyStrip _ (hvals r hr rc)⟩

theorem mappings_targets_nodup :
    (_get_column_mappings.map Prod.snd).Nodup := by decide

theorem mappings_targets_ne_KEY :
    ∀ m ∈ _get_column_mappings, m.2 ≠ "KEY" := by decide

theorem hasColumn_of_mem (rows : List Record) (r : Record) (c : String)
    (hr : r ∈ rows) (h : r.hasKey c = true) : hasColumn rows c = true := by
  unfold hasColumn
  rw [List.any_eq_true]
  exact ⟨r, hr, h⟩

theorem hasColumn_exists (rows : List Record) (c : String)
    (h : hasColumn rows c = true) : ∃ r ∈ rows, r.hasKey c = true := by
  unfold hasColumn at h
  rw [List.any_eq_true] at h
  exact h

theorem processAdminRow_hasKey_of (rk ak : List Record)
    (mappings : List (String × String)) (row : Record) (k : String)
    (h : row.hasKey k = true) :
    (processAdminRow rk ak mappings row).hasKey k = true := by
  unfold processAdminRow
  by_cases hg : (groupFor rk (row.get "KEY")).isEmpty = true
  · rw [if_pos hg]; exact h
  · rw [if_neg hg]
    exact applyMappings_hasKey_of _ _ _ _ _ _
      (setSpecialCols_hasKey_of _ _ _ _ h)

theorem processAdminRow_hasKey_cases (rk ak : List Record)
    (mappings : List (String × String)) (row : Record) (k : String)
    (h : (processAdminRow rk ak mappings row).hasKey k = true) :
    row.hasKey k = true ∨ hasColumn ak k = true := by
  unfold processAdminRow at h
  by_cases hg : (groupFor rk (row.get "KEY")).isEmpty = true
  · rw [if_pos hg] at h; exact Or.inl h
  · rw [if_neg hg] at h
    rcases applyMappings_hasKey_cases _ _ _ _ _ _ h with h2 | ⟨m, _, hkm, hcol⟩
    · rcases setSpecialCols_hasKey_cases _ _ _ _ h2 with h3 | ⟨hk, hcol⟩ | ⟨hk, hcol⟩
      · exact Or.inl h3
      · rw [hk]; exact Or.inr hcol
      · rw [hk]; exact Or.inr hcol
    · rw [hkm]; exact Or.inr hcol

theorem hasColumn_run_eq (R A : List Record) (c : String) :
    hasColumn ((mergeRowsWith _get_column_mappings R A).map addKey) c
      = hasColumn (A.map addKey) c := by
  cases hc : hasColumn (A.map addKey) c with
  | true =>
    obtain ⟨ra, hra, hkey⟩ := hasColumn_exists _ _ hc
    rw [List.mem_map] at hra
    obtain ⟨a, haA, rfl⟩ := hra
    have hmem : dropKey (processAdminRow (R.map addKey) (A.map addKey)
        _get_column_mappings (addKey a)) ∈ mergeRowsWith _get_column_mappings R A := by
      unfold mergeRowsWith
      rw [List.map_map]
      exact List.mem_map.mpr ⟨a, haA, rfl⟩
    by_cases cKEY : c = "KEY"
    · subst cKEY
      exact hasColumn_of_mem _ _ _ (List.mem_map.mpr ⟨_, hmem, rfl⟩)
        (addKey_hasKey_KEY _)
    · have h1 : Record.hasKey a c = true := by
        rw [← addKey_hasKey a c cKEY]; exact hkey
      have h2 : (dropKey (processAdminRow (R.map addKey) (A.map addKey)
          _get_column_mappings (addKey a))).hasKey c = true := by
        rw [dropKey_hasKey _ c cKEY]
        exact processAdminRow_hasKey_of _ _ _ _ _
          (by rw [addKey_hasKey a c cKEY]; exact h1)
      exact hasColumn_of_mem _ _ _ (List.mem_map.mpr ⟨_, hmem, rfl⟩)
        (by rw [addKey_hasKey _ c cKEY]; exact h2)
  | false =>
    cases hc2 : hasColumn ((mergeRowsWith _get_column_mappings R A).map addKey) c with
    | false => rfl
    | true =>
      exfalso
      obtain ⟨ra, hra, hkey⟩ := hasColumn_exists _ _ hc2
      rw [List.mem_map] at hra
      obtain ⟨a', ha', rfl⟩ := hra
      unfold mergeRowsWith at ha'
      rw [List.map_map, List.mem_map] at ha'
      obtain ⟨a, haA, rfl⟩ := ha'
      by_cases cKEY : c = "KEY"
      · subst cKEY
        have : hasColumn (A.map addKey) "KEY" = true :=
          hasColumn_of_mem _ _ _ (List.mem_map.mpr ⟨a, haA, rfl⟩)
            (addKey_hasKey_KEY a)
        rw [hc] at this
        exact Bool.false_ne_true this
      · have h1 : (processAdminRow (R.map addKey) (A.map addKey)
            _get_column_mappings (addKey a)).hasKey c = true := by
          rw [← dropKey_hasKey _ c cKEY, ← addKey_hasKey _ c cKEY]
          exact hkey
        rcases processAdminRow_hasKey_cases _ _ _ _ _ h1 with h2 | h2
        · have : hasColumn (A.map addKey) c = true :=
            hasColumn_of_mem _ _ _ (List.mem_map.mpr ⟨a, haA, rfl⟩) h2
          rw [hc] at this
          exact Bool.false_ne_true this
        · rw [hc] at h2
          exact Bool.false_ne_true h2

theorem mapStep_congr_ak (rk ak ak2 : List Record) (group : List Record)
    (m : String × String) (r : Record)
    (hcols : hasColumn ak2 m.2 = hasColumn ak m.2) :
    mapStep rk ak2 group m r = mapStep rk ak group m r := by
  unfold mapStep
  rw [hcols]

theorem applyMappings_congr_ak (rk ak ak2 : List Record) (group : List Record)
    (ms : List (String × String)) (r : Record)
    (hcols : ∀ m ∈ ms, hasColumn ak2 m.2 = hasColumn ak m.2) :
    applyMappings rk ak2 group ms r = applyMappings rk ak group ms r := by
  induction ms generalizing r with
  | nil => rfl
  | cons m rest ih =>
    rw [applyMappings, applyMappings,
      mapStep_congr_ak rk ak ak2 group m r (hcols m (List.mem_cons_self m rest)),
      ih _ (fun q hq => hcols q (List.mem_cons_of_mem m hq))]

theorem setSpecialCols_congr_ak (ak ak2 : List Record)
    (group : List (Nat × Record)) (row : Record)
    (h1 : hasColumn ak2 "uuid" = hasColumn ak "uuid")
    (h2 : hasColumn ak2 "대표자 이름" = hasColumn ak "대표자 이름") :
    setSpecialCols ak2 group row = setSpecialCols ak group row := by
  unfold setSpecialCols
  rw [h1, h2]

theorem processAdminRow_congr_ak (rk ak ak2 : List Record)
    (mappings : List (String × String)) (row : Record)
    (hcols : ∀ c, hasColumn ak2 c = hasColumn ak c) :
    processAdminRow rk ak2 mappings row = processAdminRow rk ak mappings row := by
  unfold processAdminRow
  by_cases hg : (groupFor rk (row.get "KEY")).isEmpty = true
  · rw [if_pos hg, if_pos hg]
  · rw [if_neg hg, if_neg hg,
      setSpecialCols_congr_ak ak ak2 _ row (hcols "uuid") (hcols "대표자 이름"),
      applyMappings_congr_ak rk ak ak2 _ mappings _ (fun m _ => hcols m.2)]

theorem setSpecialCols_hasKey_uuid (ak : List Record)
    (group : List (Nat × Record)) (row : Record)
    (h : hasColumn ak "uuid" = true) :
    (setSpecialCols ak group row).hasKey "uuid" = true := by
  unfold setSpecialCols
  by_cases h1 : hasColumn ak "대표자 이름" <;>
    simp only [h1, h, if_true, if_false, Bool.false_eq_true]
  · exact (Record.hasKey_set_iff _ _ _ _).mpr
      (Or.inl ((Record.hasKey_set_iff _ _ _ _).mpr (Or.inr rfl)))
  · exact (Record.hasKey_set_iff _ _ _ _).mpr (Or.inr rfl)

theorem setSpecialCols_hasKey_rep (ak : List Record)
    (group : List (Nat × Record)) (row : Record)
    (h : hasColumn ak "대표자 이름" = true) :
    (setSpecialCols ak group row).hasKey "대표자 이름" = true := by
  unfold setSpecialCols
  rw [if_pos h]
  exact (Record.hasKey_set_iff _ _ _ _).mpr (Or.inr rfl)

theorem setSpecialCols_noop (ak : List Record) (group : List (Nat × Record))
    (row : Record)
    (hu : hasColumn ak "uuid" = true → (row.hasKey "uuid" = true ∧
      row.get "uuid" = _generate_uuid_from_df (group.map Prod.fst)))
    (hr : hasColumn ak "대표자 이름" = true → (row.hasKey "대표자 이름" = true ∧
      row.get "대표자 이름" = _extract_representatives (group.map Prod.snd))) :
    setSpecialCols ak group row = row := by
  unfold setSpecialCols
  by_cases h1 : hasColumn ak "대표자 이름" <;>
    by_cases h2 : hasColumn ak "uuid" <;>
      simp only [h1, h2, if_true, if_false, Bool.false_eq_true]
  · rw [Record.set_eq_self _ _ _ (hu h2).1 (hu h2).2,
      Record.set_eq_self _ _ _ (hr h1).1 (hr h1).2]
  · rw [Record.set_eq_self _ _ _ (hr h1).1 (hr h1).2]
  · rw [Record.set_eq_self _ _ _ (hu h2).1 (hu h2).2]

theorem applyMappings_noop (rk ak : List Record) (g : List Record) :
    ∀ (ms : List (String × String)), (ms.map Prod.snd).Nodup →
    (∀ m ∈ ms, ∀ v ∈ collectNewValues g m.1, isClean v) →
    (∀ m ∈ ms, m.2 ≠ "KEY") →
    ∀ (r s : Record),
    (∀ c, c ≠ "KEY" → s.get c = (applyMappings rk ak g ms r).get c) →
    (∀ c, c ≠ "KEY" → (applyMappings rk ak g ms r).hasKey c = true →
      s.hasKey c = true) →
    applyMappings rk ak g ms s = s := by
  intro ms
  induction ms with
  | nil => intro _ _ _ r s _ _; rfl
  | cons m rest ih =>
    intro hnodup hclean hKEY r s hget hkeys
    have hm2 : m.2 ≠ "KEY" := hKEY m (List.mem_cons_self m rest)
    have hrestne : ∀ q ∈ rest, q.2 ≠ m.2 := by
      intro q hq hcon
      rw [List.map_cons, List.nodup_cons] at hnodup
      exact hnodup.1 (List.mem_map.mpr ⟨q, hq, hcon⟩)
    have happend : ∀ (t : Record), applyMappings rk ak g (m :: rest) t
        = applyMappings rk ak g rest (mapStep rk ak g m t) := fun t => rfl
    have hstep : mapStep rk ak g m s = s := by
      unfold mapStep
      by_cases h1 : m.2 ∈ _get_protected_columns
      · rw [if_pos h1]
      · rw [if_neg h1]
        by_cases h2 : (hasColumn rk m.1 && hasColumn ak m.2) = true
        · rw [if_pos h2]
          by_cases h3 : (collectNewValues g m.1).isEmpty = true
          · rw [if_pos h3]
          · rw [if_neg h3]
            have hstep1 : mapStep rk ak g m r
                = r.set m.2 (_merge_multiline_data (r.get m.2)
                    (collectNewValues g m.1)) := by
              unfold mapStep
              rw [if_neg h1, if_pos h2, if_neg h3]
            have hval : s.get m.2 = _merge_multiline_data (r.get m.2)
                (collectNewValues g m.1) := by
              rw [hget m.2 hm2, happend r,
                applyMappings_get_ne _ _ _ rest _ m.2 hrestne, hstep1,
                Record.get_set_self]
            have hmem : s.hasKey m.2 = true := by
              apply hkeys m.2 hm2
              rw [happend r]
              apply applyMappings_hasKey_of
              rw [hstep1]
              exact (Record.hasKey_set_iff _ _ _ _).mpr (Or.inr rfl)
            have hVne : collectNewValues g m.1 ≠ [] := by
              intro hcon
              rw [hcon] at h3
              exact h3 rfl
            apply Record.set_eq_self s m.2 _ hmem
            rw [hval]
            exact (merge_multiline_stable (r.get m.2) (collectNewValues g m.1)
              hVne (hclean m (List.mem_cons_self m rest))).symm
        · rw [if_neg h2]
    rw [happend s, hstep]
    refine ih ?_ ?_ ?_ (mapStep rk ak g m r) s ?_ ?_
    · rw [List.map_cons, List.nodup_cons] at hnodup
      exact hnodup.2
    · exact fun q hq => hclean q (List.mem_cons_of_mem m hq)
    · exact fun q hq => hKEY q (List.mem_cons_of_mem m hq)
    · intro c hc
      rw [hget c hc, happend r]
    · intro c hc hk
      apply hkeys c hc
      rw [happend r]
      exact hk

theorem rowKey_processed (rk ak : List Record)
    (mappings : List (String × String)) (a : Record) :
    rowKey (dropKey (processAdminRow rk ak mappings (addKey a))) = rowKey a := by
  unfold rowKey
  rw [dropKey_get _ _ (by decide), dropKey_get _ _ (by decide),
    processAdminRow_get_protected _ _ _ _ "동" (by decide),
    processAdminRow_get_protected _ _ _ _ "호수" (by decide),
    addKey_get _ "동" (by decide), addKey_get _ "호수" (by decide)]

theorem processAdminRow_matched_uuid (rk ak : List Record)
    (mappings : List (String × String)) (row : Record)
    (hg : ¬ (groupFor rk (row.get "KEY")).isEmpty = true)
    (hcol : hasColumn ak "uuid" = true)
    (hM : ∀ m ∈ mappings, m.2 ≠ "uuid") :
    (processAdminRow rk ak mappings row).get "uuid"
      = _generate_uuid_from_df ((groupFor rk (row.get "KEY")).map Prod.fst) := by
  unfold processAdminRow
  rw [if_neg hg, applyMappings_get_ne _ _ _ _ _ _ hM]
  exact setSpecialCols_get_uuid _ _ _ hcol

theorem processAdminRow_matched_rep (rk ak : List Record)
    (mappings : List (String × String)) (row : Record)
    (hg : ¬ (groupFor rk (row.get "KEY")).isEmpty = true)
    (hcol : hasColumn ak "대표자 이름" = true)
    (hM : ∀ m ∈ mappings, m.2 ≠ "대표자 이름") :
    (processAdminRow rk ak mappings row).get "대표자 이름"
      = _extract_representatives ((groupFor rk (row.get "KEY")).map Prod.snd) := by
  unfold processAdminRow
  rw [if_neg hg, applyMappings_get_ne _ _ _ _ _ _ hM]
  exact setSpecialCols_get_rep _ _ _ hcol

theorem processRow_idem (rk ak : List Record) (a : Record)
    (hvals : ∀ r ∈ rk, ∀ c, noNl (Record.get r c)) :
    dropKey (processAdminRow rk ak _get_column_mappings (addKey
      (dropKey (processAdminRow rk ak _get_column_mappings (addKey a)))))
      = dropKey (processAdminRow rk ak _get_column_mappings (addKey a)) := by
  set b := dropKey (processAdminRow rk ak _get_column_mappings (addKey a))
    with hb
  have hkeyb : rowKey b = rowKey a := rowKey_processed rk ak _ a
  have hbKEY : b.hasKey "KEY" = false := by
    rw [hb]
    exact dropKey_hasKey_KEY _
  by_cases hg : (groupFor rk (rowKey a)).isEmpty = true
  · have hgb : groupFor rk ((addKey b).get "KEY") = [] := by
      rw [addKey_get_KEY, hkeyb]
      exact List.isEmpty_iff.mp hg
    rw [processAdminRow_unmatched _ _ _ _ hgb]
    rw [dropKey_addKey_of_no_KEY b hbKEY]
  · have hga' : ¬ (groupFor rk ((addKey a).get "KEY")).isEmpty = true := by
      rw [addKey_get_KEY]
      exact hg
    have hrun1 : processAdminRow rk ak _get_column_mappings (addKey a)
        = applyMappings rk ak ((groupFor rk (rowKey a)).map Prod.snd)
            _get_column_mappings
            (setSpecialCols ak (groupFor rk (rowKey a)) (addKey a)) := by
      unfold processAdminRow
      rw [addKey_get_KEY, if_neg hg]
    have hrun2 : processAdminRow rk ak _get_column_mappings (addKey b)
        = applyMappings rk ak ((groupFor rk (rowKey a)).map Prod.snd)
            _get_column_mappings
            (setSpecialCols ak (groupFor rk (rowKey a)) (addKey b)) := by
      unfold processAdminRow
      rw [addKey_get_KEY, hkeyb, if_neg hg]
    have hgclean : ∀ m ∈ _get_column_mappings, ∀ v ∈ collectNewValues
        ((groupFor rk (rowKey a)).map Prod.snd) m.1, isClean v := by
      intro m _
      apply collectNewValues_clean
      intro r hr c
      rw [List.mem_map] at hr
      obtain ⟨p, hp, rfl⟩ := hr
      exact hvals p.2 (groupFor_mem_list rk _ p hp) c
    have hbget : ∀ c, c ≠ "KEY" → (addKey b).get c
        = (applyMappings rk ak ((groupFor rk (rowKey a)).map Prod.snd)
            _get_column_mappings
            (setSpecialCols ak (groupFor rk (rowKey a)) (addKey a))).get c := by
      intro c hc
      rw [addKey_get b c hc, hb, dropKey_get _ c hc, hrun1]
    have hbkeys : ∀ c, c ≠ "KEY" →
        (applyMappings rk ak ((groupFor rk (rowKey a)).map Prod.snd)
            _get_column_mappings
            (setSpecialCols ak (groupFor rk (rowKey a)) (addKey a))).hasKey c
          = true → (addKey b).hasKey c = true := by
      intro c hc hk
      rw [addKey_hasKey b c hc, hb, dropKey_hasKey _ c hc, hrun1]
      exact hk
    have hspecial : setSpecialCols ak (groupFor rk (rowKey a)) (addKey b)
        = addKey b := by
      apply setSpecialCols_noop
      · intro hcol
        constructor
        · exact hbkeys "uuid" (by decide)
            (applyMappings_hasKey_of _ _ _ _ _ _
              (setSpecialCols_hasKey_uuid _ _ _ hcol))
        · rw [addKey_get b "uuid" (by decide), hb, dropKey_get _ _ (by decide),
            processAdminRow_matched_uuid rk ak _ (addKey a) hga' hcol
              mappings_ne_uuid, addKey_get_KEY]
      · intro hcol
        constructor
        · exact hbkeys "대표자 이름" (by decide)
            (applyMappings_hasKey_of _ _ _ _ _ _
              (setSpecialCols_hasKey_rep _ _ _ hcol))
        · rw [addKey_get b "대표자 이름" (by decide), hb,
            dropKey_get _ _ (by decide),
            processAdminRow_matched_rep rk ak _ (addKey a) hga' hcol
              mappings_ne_rep, addKey_get_KEY]
    rw [hrun2, hspecial,
      applyMappings_noop rk ak ((groupFor rk (rowKey a)).map Prod.snd)
        _get_column_mappings mappings_targets_nodup hgclean
        mappings_targets_ne_KEY
        (setSpecialCols ak (groupFor rk (rowKey a)) (addKey a))
        (addKey b) hbget hbkeys]
    exact dropKey_addKey_of_no_KEY b hbKEY

theorem mergeRowsWith_eq (mappings : List (String × String))
    (R A : List Record) :
    mergeRowsWith mappings R A = (A.map addKey).map (fun row =>
      dropKey (processAdminRow (R.map addKey) (A.map addKey) mappings row)) :=
  rfl

theorem mergeRows_idem (R A : List Record)
    (h : ∀ r ∈ R, ∀ p ∈ r, noNl p.2) :
    mergeRowsWith _get_column_mappings R (mergeRowsWith _get_column_mappings R A)
      = mergeRowsWith _get_column_mappings R A := by
  have hvals : ∀ r ∈ R.map addKey, ∀ c, noNl (Record.get r c) := by
    intro r hr c
    rw [List.mem_map] at hr
    obtain ⟨r0, hr0, rfl⟩ := hr
    exact addKey_values_noNl r0 (h r0 hr0) c
  set A2 := mergeRowsWith _get_column_mappings R A with hA2
  have hcols : ∀ c, hasColumn (A2.map addKey) c = hasColumn (A.map addKey) c := by
    intro c
    rw [hA2]
    exact hasColumn_run_eq R A c
  rw [mergeRowsWith_eq, List.map_map]
  have hid : ∀ a ∈ A2,
      ((fun row => dropKey (processAdminRow (R.map addKey) (A2.map addKey)
        _get_column_mappings row)) ∘ addKey) a = id a := by
    intro a' ha'
    simp only [Function.comp, id]
    rw [hA2, mergeRowsWith_eq, List.map_map, List.mem_map] at ha'
    obtain ⟨a, haA, rfl⟩ := ha'
    simp only [Function.comp]
    rw [processAdminRow_congr_ak (R.map addKey) (A.map addKey) (A2.map addKey)
      _get_column_mappings _ hcols]
    exact processRow_idem (R.map addKey) (A.map addKey) a hvals
  rw [List.map_congr_left hid, List.map_id]

/-- C5 (counterexample to the claim as stated): a response cell value with
an internal newline defeats the deduplication — the first run stores
`"a\nb"`, the second run splits it into two lines and appends the raw value
again, so rerunning grows the cell. -/
theorem claim_C5_counterexample :
    adminAfterRun [[("동", "1"), ("호수", "2"), ("이름", "a\nb")]]
        [[("동", "1"), ("호수", "2"), ("이름", "")]]
      = [[("동", "1"), ("호수", "2"), ("이름", "a\nb")]] ∧
    adminAfterRun [[("동", "1"), ("호수", "2"), ("이름", "a\nb")]]
        (adminAfterRun [[("동", "1"), ("호수", "2"), ("이름", "a\nb")]]
          [[("동", "1"), ("호수", "2"), ("이름", "")]])
      = [[("동", "1"), ("호수", "2"), ("이름", "a\nb\na\nb")]] ∧
    adminAfterRun [[("동", "1"), ("호수", "2"), ("이름", "a\nb")]]
        (adminAfterRun [[("동", "1"), ("호수", "2"), ("이름", "a\nb")]]
          [[("동", "1"), ("호수", "2"), ("이름", "")]])
      ≠ adminAfterRun [[("동", "1"), ("호수", "2"), ("이름", "a\nb")]]
          [[("동", "1"), ("호수", "2"), ("이름", "")]] :=
  ⟨by decide, by decide, by decide⟩

/-- C5 (amended): for every Response snapshot none of whose cell values
contains a newline character and every Admin snapshot, rerunning the merge
on its own output reproduces that output — deduplication prevents growth on
a second run with identical input. -/
theorem claim_C5 (R A : List Record)
    (h : ∀ r ∈ R, ∀ p ∈ r, noNl p.2) :
    adminAfterRun R (adminAfterRun R A) = adminAfterRun R A := by
  cases R with
  | nil => rfl
  | cons r0 rs =>
    rw [adminAfterRun_cons, adminAfterRun_cons]
    exact mergeRows_idem (r0 :: rs) A h

/-- C5 witness: a concrete newline-free snapshot is idempotent under
rerun. -/
theorem claim_C5_witness :
    adminAfterRun [[("동", "1"), ("호수", "2"), ("이름", "kim")]]
        (adminAfterRun [[("동", "1"), ("호수", "2"), ("이름", "kim")]]
          [[("동", "1"), ("호수", "2"), ("이름", "")]])
      = adminAfterRun [[("동", "1"), ("호수", "2"), ("이름", "kim")]]
          [[("동", "1"), ("호수", "2"), ("이름", "")]] :=
  claim_C5 [[("동", "1"), ("호수", "2"), ("이름", "kim")]]
    [[("동", "1"), ("호수", "2"), ("이름", "")]] (by decide)
